import Mathlib

/-!
Verification development for the `code_formatter` repository
(a Rust command-line tool re-formatting compact HTML/CSS/JS/TS).

Every function of `src/main.rs` that the claims refer to is embedded
shallowly below. Strings are modelled as `List Char` (Rust `String`s are
UTF-8; all positions manipulated by the program lie on character
boundaries, and byte-length counters agree with character counts on the
ASCII indent units and inputs the claims consider; this modelling choice
is noted at each spot where Rust uses `.len()` byte counts).

Loops that consume a statically unknown number of characters per
iteration are written with an explicit fuel parameter; since every
iteration consumes at least one input character, `length + 1` fuel always
suffices, and the public wrappers pass exactly that.
-/

namespace CodeFormatter

/-- Rust `char::is_whitespace`: the Unicode `White_Space` property,
written out as the full (finite) list of white-space code points. -/
def rustIsWhitespace (c : Char) : Bool :=
  decide (c ∈ [' ', '\t', '\n', '\u000B', '\u000C', '\r', '\u0085', '\u00A0',
      '\u1680', '\u2000', '\u2001', '\u2002', '\u2003', '\u2004', '\u2005',
      '\u2006', '\u2007', '\u2008', '\u2009', '\u200A', '\u2028', '\u2029',
      '\u202F', '\u205F', '\u3000'])

/-- Rust `str::repeat`: `n` concatenated copies of `unit`. -/
def repeatList (unit : List Char) : Nat → List Char
  | 0 => []
  | n + 1 => unit ++ repeatList unit n

/-- Rust `str::replace`: replace every non-overlapping occurrence of
`pat` in `l` by `rep`, scanning left to right. `fuel` bounds the scan;
each step consumes at least one character of `l`. -/
def listReplaceGo (pat rep : List Char) : Nat → List Char → List Char
  | 0, l => l
  | _ + 1, [] => []
  | fuel + 1, c :: rest =>
      if pat ≠ [] ∧ pat.isPrefixOf (c :: rest) then
        rep ++ listReplaceGo pat rep fuel ((c :: rest).drop pat.length)
      else
        c :: listReplaceGo pat rep fuel rest

/-- Rust `str::replace` wrapper with sufficient fuel. -/
def listReplace (l pat rep : List Char) : List Char :=
  listReplaceGo pat rep (l.length + 1) l

/-- Rust `str::trim_end`: drop trailing Unicode whitespace. -/
def rustTrimEnd (l : List Char) : List Char :=
  (l.reverse.dropWhile rustIsWhitespace).reverse

/-- Rust `str::trim_start`: drop leading Unicode whitespace. -/
def rustTrimStart (l : List Char) : List Char :=
  l.dropWhile rustIsWhitespace

/-- Rust `str::trim`. -/
def rustTrim (l : List Char) : List Char :=
  rustTrimEnd (rustTrimStart l)

/-- Rust `str::trim_end_matches(&[' ', '\t'][..])`: drop trailing spaces
and tabs only. -/
def trimEndSpaceTab (l : List Char) : List Char :=
  (l.reverse.dropWhile (fun c => c = ' ' ∨ c = '\t')).reverse

/-- The thirteen characters the operator branch of `add_operator_spaces`
recognises (src/main.rs line 54). -/
def opCharList : List Char :=
  ['=', '+', '-', '*', '/', '%', '>', '<', '!', '&', '|', '^', '~']

/-- Whether `c` starts (or extends) an operator token. -/
def isOpChar (c : Char) : Bool := decide (c ∈ opCharList)

/-- Opening delimiter. -/
def isOpenDelim (c : Char) : Bool := decide (c ∈ ['(', '[', '{'])

/-- Closing delimiter. -/
def isCloseDelim (c : Char) : Bool := decide (c ∈ [')', ']', '}'])

/-- The greedy multi-character operator loop of `add_operator_spaces`
(src/main.rs lines 56-63): starting from the token `op`, keep consuming
a following `=`, or a `&` when the token so far is exactly "&", or a `|`
when it is exactly "|". Returns the finished token and the rest of the
input. -/
def opTake (op : List Char) : List Char → List Char × List Char
  | [] => (op, [])
  | c :: rest =>
      if c = '=' ∨ (op = ['&'] ∧ c = '&') ∨ (op = ['|'] ∧ c = '|') then
        opTake (op ++ [c]) rest
      else (op, c :: rest)

/-- The operator arm of `add_operator_spaces` (lines 54-73), given the
finished greedy operator token `op` and the lookahead character `la`:
push a space unless the output is empty or already ends in a space or an
opening delimiter, push the token, and push a space unless the next
character is missing, whitespace, a closing delimiter, a comma or a
semicolon. `racc` is the output in reverse order. -/
def aosOpStep (racc op : List Char) (la : Option Char) : List Char :=
  let racc1 :=
    if racc ≠ [] ∧ racc.head? ≠ some ' ' ∧ racc.head? ≠ some '(' ∧
       racc.head? ≠ some '[' ∧ racc.head? ≠ some '{' then
      ' ' :: racc
    else racc
  let racc2 := op.reverse ++ racc1
  match la with
  | some nc =>
      if ¬ rustIsWhitespace nc ∧ nc ≠ ')' ∧ nc ≠ ']' ∧ nc ≠ '}' ∧
         nc ≠ ',' ∧ nc ≠ ';' then
        ' ' :: racc2
      else racc2
  | none => racc2

/-- The comma/semicolon arm (lines 74-81): push the character, then a
space unless the next character is missing, whitespace, a closing
delimiter or a newline. -/
def aosPunctStep (racc : List Char) (c : Char) (la : Option Char) :
    List Char :=
  let racc1 := c :: racc
  match la with
  | some nc =>
      if ¬ rustIsWhitespace nc ∧ nc ≠ ')' ∧ nc ≠ ']' ∧ nc ≠ '}' ∧
         nc ≠ '\n' then
        ' ' :: racc1
      else racc1
  | none => racc1

/-- The opening-delimiter arm (lines 82-95), excluding its whitespace
skip (which is on the input side): push a space unless the output is
empty or ends in a space, an opening delimiter or one of
`=` `+` `-` `*` `/`, then push the delimiter. -/
def aosOpenStep (racc : List Char) (c : Char) : List Char :=
  let racc1 :=
    if racc ≠ [] ∧ racc.head? ≠ some ' ' ∧ racc.head? ≠ some '(' ∧
       racc.head? ≠ some '[' ∧ racc.head? ≠ some '{' ∧
       racc.head? ≠ some '=' ∧ racc.head? ≠ some '+' ∧
       racc.head? ≠ some '-' ∧ racc.head? ≠ some '*' ∧
       racc.head? ≠ some '/' then
      ' ' :: racc
    else racc
  c :: racc1

/-- The closing-delimiter arm (lines 96-108): pop one trailing space,
push the delimiter, then push a space unless the next character is
missing, whitespace, a closing delimiter, a comma, a semicolon or one of
`+` `-` `*` `/`. The arm's `current_line_length` local is written but
never read. -/
def aosCloseStep (racc : List Char) (c : Char) (la : Option Char) :
    List Char :=
  let racc1 := if racc ≠ [] ∧ racc.head? = some ' ' then racc.tail else racc
  let racc2 := c :: racc1
  match la with
  | some nc =>
      if ¬ rustIsWhitespace nc ∧ nc ≠ ')' ∧ nc ≠ ']' ∧ nc ≠ '}' ∧
         nc ≠ ',' ∧ nc ≠ ';' ∧ nc ≠ '+' ∧ nc ≠ '-' ∧ nc ≠ '*' ∧
         nc ≠ '/' then
        ' ' :: racc2
      else racc2
  | none => racc2

/-- One run of the `add_operator_spaces` loop (src/main.rs lines
48-115), dispatching to the arm steps above. `racc` is the output
accumulator in REVERSE order: its head is the last character emitted so
far, so Rust's `result.ends_with(c)` is `racc.head? = some c` and
`result.pop()` is `racc.tail`; the final string is `racc.reverse`.
`fuel` bounds the number of loop iterations; each iteration consumes at
least one input character. -/
def aosGo : Nat → List Char → List Char → List Char
  | 0, _, racc => racc
  | _ + 1, [], racc => racc
  | fuel + 1, c :: cs, racc =>
      if isOpChar c then
        let p := opTake [c] cs
        aosGo fuel p.2 (aosOpStep racc p.1 p.2.head?)
      else if c = ',' ∨ c = ';' then
        aosGo fuel cs (aosPunctStep racc c cs.head?)
      else if isOpenDelim c then
        aosGo fuel (cs.dropWhile rustIsWhitespace) (aosOpenStep racc c)
      else if isCloseDelim c then
        aosGo fuel cs (aosCloseStep racc c cs.head?)
      else
        aosGo fuel cs (c :: racc)

/-- `add_operator_spaces` on character lists. -/
def aosList (l : List Char) : List Char :=
  (aosGo (l.length + 1) l []).reverse

/-- src/main.rs lines 48-115: insert canonical spacing around operators
and punctuation in a text fragment. -/
def add_operator_spaces (s : String) : String :=
  (aosList s.data).asString

/-- The loop of `split_clustered_brackets` (src/main.rs lines 118-185).
The output accumulator `acc` is in normal order. `stack` is the
delimiter stack (`bracket_stack`), `consec` the `consecutive_brackets`
counter and `lineLen` the `current_line_length` counter. The `80` is the
hard-coded threshold of lines 133 and 145; the function has no
max-line-length parameter at all. Rust's `indent_unit.len()` is a byte
count; `unit.length` agrees with it on the all-ASCII units the program
builds. -/
def scbGo (unit : List Char) (base : Nat) :
    List Char → List Char → List Char → Nat → Nat → List Char
  | [], acc, _, _, _ => acc
  | c :: cs, acc, stack, consec, lineLen =>
      if isOpenDelim c then
        let stack' := c :: stack
        let consec' := consec + 1
        let acc1 := acc ++ [c]
        let lineLen1 := lineLen + 1
        if consec' ≥ 3 ∨ lineLen1 > 80 then
          scbGo unit base cs
            (acc1 ++ '\n' :: repeatList unit (base + stack'.length))
            stack' 0 (unit.length * (base + stack'.length))
        else
          scbGo unit base cs acc1 stack' consec' lineLen1
      else if isCloseDelim c then
        let stack' := if stack ≠ [] then stack.tail else stack
        let consec' := consec + 1
        let broken := consec' ≥ 3 ∨ lineLen > 80
        let acc1 :=
          if broken then
            acc ++ '\n' :: repeatList unit (base + stack'.length)
          else acc
        let lineLen1 :=
          if broken then unit.length * (base + stack'.length) else lineLen
        let consec1 := if broken then 0 else consec'
        let acc2 :=
          if acc1 ≠ [] ∧ acc1.getLast? = some ' ' then acc1.dropLast else acc1
        let acc3 := acc2 ++ [c]
        let lineLen2 := lineLen1 + 1
        match cs.head? with
        | some nc =>
            if ¬ rustIsWhitespace nc ∧ nc ≠ ')' ∧ nc ≠ ']' ∧ nc ≠ '}' ∧
               nc ≠ ',' ∧ nc ≠ ';' then
              scbGo unit base cs (acc3 ++ [' ']) stack' consec1 (lineLen2 + 1)
            else
              scbGo unit base cs acc3 stack' consec1 lineLen2
        | none => scbGo unit base cs acc3 stack' consec1 lineLen2
      else if c = '\n' then
        scbGo unit base cs
          (acc ++ '\n' :: repeatList unit (base + stack.length))
          stack 0 (unit.length * (base + stack.length))
      else if c = ' ' then
        if acc.getLast? = some ' ' then
          scbGo unit base cs acc stack consec lineLen
        else
          scbGo unit base cs (acc ++ [' ']) stack consec (lineLen + 1)
      else
        scbGo unit base cs (acc ++ [c]) stack 0 (lineLen + 1)

/-- `split_clustered_brackets` on character lists. -/
def scbList (unit : List Char) (base : Nat) (l : List Char) : List Char :=
  scbGo unit base l [] [] 0 0

/-- src/main.rs lines 118-185: split clustered brackets, keeping indent. -/
def split_clustered_brackets (s indent_unit : String) (current_indent : Nat) :
    String :=
  (scbList indent_unit.data current_indent s.data).asString

/-! ### HTML engine (src/main.rs lines 190-351) -/

/-- The tag-consumption inner loop of `format_html` (lines 214-231):
consume characters into `tag_buf` until a `>` is met outside a comment,
updating the `in_comment` flag from the buffer contents each step. The
unused `tag_length` counter is not modelled. Returns the consumed buffer
(including the final `>`, when one was found) and the remaining input.
On end of input the outer loop also terminates, so the final flag value
is not returned. -/
def consumeTag : List Char → Bool → List Char → List Char × List Char
  | [], _, buf => (buf, [])
  | nc :: rest, inC, buf =>
      let buf' := buf ++ [nc]
      let inC1 := if (['!', '-', '-'].isPrefixOf buf') then true else inC
      let inC2 := if inC1 ∧ ['-', '-', '>'].isSuffixOf buf' then false else inC1
      if nc = '>' ∧ ¬ inC2 then (buf', rest)
      else consumeTag rest inC2 buf'

/-- The quoted-attribute-value inner loop of `format_html`
(lines 252-261): copy characters up to and including the next occurrence
of the quote `q`; at end of input just stop. Returns the copied text and
the remaining input. -/
def copyQuoted (q : Char) : List Char → List Char × List Char
  | [] => ([], [])
  | c :: rest =>
      if c = q then ([c], rest)
      else
        let p := copyQuoted q rest
        (c :: p.1, p.2)

/-- The tag-attribute normalisation loop of `format_html`
(lines 234-272): rewrite `=` as ` = ` (dropping whitespace after it),
copy quoted values untouched, collapse runs of spaces (never after an
`=`), copy everything else. `fuel` bounds the iterations; each consumes
at least one character. -/
def formatTagAttrs : Nat → List Char → List Char → List Char
  | 0, _, acc => acc
  | _ + 1, [], acc => acc
  | fuel + 1, tc :: rest, acc =>
      if tc = '=' then
        formatTagAttrs fuel (rest.dropWhile rustIsWhitespace)
          (acc ++ [' ', '=', ' '])
      else if tc = '"' ∨ tc = Char.ofNat 39 then
        let p := copyQuoted tc rest
        formatTagAttrs fuel p.2 (acc ++ tc :: p.1)
      else if tc = ' ' then
        if acc.getLast? = some ' ' ∨ acc.getLast? = some '=' then
          formatTagAttrs fuel rest acc
        else
          formatTagAttrs fuel rest (acc ++ [' '])
      else
        formatTagAttrs fuel rest (acc ++ [tc])

/-- Rust `trim_end_matches('>')`. -/
def trimEndGt (l : List Char) : List Char :=
  (l.reverse.dropWhile (fun c => c = '>')).reverse

/-- The void elements of src/main.rs line 290. -/
def voidElements : List (List Char) :=
  [['m','e','t','a'], ['l','i','n','k'], ['i','m','g'], ['b','r'], ['h','r']]

/-- State of the `format_html` outer loop. At the top of every outer
iteration of the Rust loop `in_tag` and `in_comment` are both false
(they are only set inside the `<` arm, whose inner loop either clears
them or consumes the whole input), so they are not part of the state and
the unreachable catch-all arm of line 337 is not modelled. The `events`
field is instrumentation only: it records `true` for every increment and
`false` for every (saturating) decrement of `current_indent_level`, in
order, and nothing in the output depends on it. -/
structure HtmlSt where
  result : List Char
  level : Nat
  lineLen : Nat
  events : List Bool
  deriving Repr, DecidableEq

/-- Processing of one captured tag (`format_html` lines 274-318), given
the already-consumed and attribute-formatted tag text. -/
def htmlTagStep (unit : List Char) (st : HtmlSt) (formatted : List Char) :
    HtmlSt :=
  let tagStr := trimEndGt formatted
  if tagStr.head? = some '/' then
    let level' := st.level - 1
    let r0 := st.result
    let r1 :=
      if (repeatList unit (level' + 1)).isSuffixOf r0 then
        r0.take (r0.length - unit.length)
      else r0
    let r2 := r1 ++ tagStr ++ ['>']
    { result := r2 ++ '\n' :: repeatList unit level',
      level := level',
      lineLen := unit.length * level',
      events := st.events ++ [false] }
  else if tagStr.getLast? = some '/' ∨ tagStr ∈ voidElements then
    { result := st.result ++ formatted ++ '\n' :: repeatList unit st.level,
      level := st.level,
      lineLen := unit.length * st.level,
      events := st.events }
  else if tagStr.head? ≠ some '!' ∧ tagStr.head? ≠ some '?' then
    let level' := st.level + 1
    { result := st.result ++ formatted ++ '\n' :: repeatList unit level',
      level := level',
      lineLen := unit.length * level',
      events := st.events ++ [true] }
  else
    { result := st.result ++ formatted ++ '\n' :: repeatList unit st.level,
      level := st.level,
      lineLen := unit.length * st.level,
      events := st.events }

/-- The `format_html` outer loop (lines 202-342). The Rust condition
`!tag_str.starts_with('!') && !tag_str.starts_with('?') &&
!tag_str.starts_with("!--")` is modelled by the first two tests alone,
since starting with `"!--"` implies starting with `'!'`. -/
def htmlGo (unit : List Char) (maxLen : Nat) :
    Nat → List Char → HtmlSt → HtmlSt
  | 0, _, st => st
  | _ + 1, [], st => st
  | fuel + 1, c :: cs, st =>
      if c = '<' then
        let st1 :=
          if st.result ≠ [] ∧ st.result.getLast? ≠ some '\n' ∧
             st.result.getLast? ≠ some ' ' ∧ st.lineLen > maxLen then
            { st with
                result := st.result ++ '\n' :: repeatList unit st.level,
                lineLen := unit.length * st.level }
          else st
        let st2 :=
          { st1 with
              result := st1.result ++ ['<'],
              lineLen := st1.lineLen + 1 }
        let p := consumeTag cs false []
        let formatted := formatTagAttrs (p.1.length + 1) p.1 []
        htmlGo unit maxLen fuel p.2 (htmlTagStep unit st2 formatted)
      else if rustIsWhitespace c then
        if st.result.getLast? = some ' ' ∨ st.result.getLast? = some '\t' then
          htmlGo unit maxLen fuel cs st
        else
          htmlGo unit maxLen fuel cs
            { st with result := st.result ++ [' '], lineLen := st.lineLen + 1 }
      else
        let st1 :=
          { st with
              result := st.result ++ [c],
              lineLen := st.lineLen + 1 }
        let st2 :=
          if st1.lineLen > maxLen then
            { st1 with
                result := st1.result ++ '\n' :: repeatList unit st1.level,
                lineLen := unit.length * st1.level }
          else st1
        htmlGo unit maxLen fuel cs st2

/-- Run the `format_html` scan from a given state. -/
def htmlScanFrom (unit : List Char) (maxLen : Nat) (st : HtmlSt)
    (content : List Char) : HtmlSt :=
  htmlGo unit maxLen (content.length + 1) content st

/-- Initial state of the `format_html` scan (the initial
`indent_unit.repeat(0)` push of line 200 is the empty string). -/
def htmlInit : HtmlSt := ⟨[], 0, 0, []⟩

/-- src/main.rs lines 190-351: `format_html`. The `indent: u8` argument
is modelled as a `Nat` (its value as a count of spaces). -/
def format_html (content : String) (indent : Nat) (max_line_length : Nat) :
    String :=
  let unit := List.replicate indent ' '
  let st := htmlScanFrom unit max_line_length htmlInit content.data
  let f1 := aosList st.result
  let f2 := listReplace f1 [' ', ' '] [' ']
  let f3 := trimEndSpaceTab f2
  (if f3.getLast? = some '\n' then f3 else f3 ++ ['\n']).asString

/-! ### CSS engine (src/main.rs lines 356-518) -/

/-- State of the `format_css` loop. The Rust local `current_selector`
is only written and read inside the `{` arm, so it is kept local there.
`events` is instrumentation: it records every increment (`true`) and
saturating decrement (`false`) of `current_indent_level`, in order, and
nothing in the output depends on it. -/
structure CssSt where
  result : List Char
  level : Nat
  inBrace : Bool
  inComment : Bool
  decls : List (List Char)
  temp : List Char
  events : List Bool
  deriving Repr, DecidableEq

/-- The in-rule expanded rendering of `format_css` (lines 431-438):
every declaration but the first is preceded by a newline and indent. -/
def cssExpandRest (unit : List Char) (level : Nat)
    (acc : List Char) (ds : List (List Char)) : List Char :=
  ds.foldl (fun a d => a ++ '\n' :: repeatList unit level ++ d ++ [';']) acc

/-- Push pending `temp_char` text as a declaration (lines 412-418 and
480-485): trim it and append unless empty. -/
def cssFlushTemp (temp : List Char) (decls : List (List Char)) :
    List (List Char) :=
  if temp ≠ [] then
    let d := rustTrim temp
    if d ≠ [] then decls ++ [d] else decls
  else decls

/-- `decl.replace(":", ": ")` of lines 423, 459 and 488. -/
def cssColonSpace (d : List Char) : List Char :=
  listReplace d [':'] [':', ' ']

/-- The `format_css` loop (lines 367-476). Consumes one character per
iteration, plus possibly one character of lookahead in the comment
arms. -/
def cssGo (unit : List Char) (maxLen : Nat) :
    Nat → List Char → CssSt → CssSt
  | 0, _, st => st
  | _ + 1, [], st => st
  | fuel + 1, c :: cs, st =>
      if c = '/' ∧ ¬ st.inComment ∧ ¬ st.inBrace then
        match cs.head? with
        | some nc =>
            if nc = '*' then
              cssGo unit maxLen fuel cs.tail
                { st with inComment := true, result := st.result ++ ['/', '*'] }
            else
              cssGo unit maxLen fuel cs { st with temp := st.temp ++ ['/'] }
        | none =>
            cssGo unit maxLen fuel cs { st with temp := st.temp ++ ['/'] }
      else if c = '*' ∧ st.inComment then
        match cs.head? with
        | some nc =>
            if nc = '/' then
              cssGo unit maxLen fuel cs.tail
                { st with
                    inComment := false,
                    result := st.result ++ ['*', '/'] ++
                      '\n' :: repeatList unit st.level }
            else
              cssGo unit maxLen fuel cs { st with result := st.result ++ ['*'] }
        | none =>
            cssGo unit maxLen fuel cs { st with result := st.result ++ ['*'] }
      else if c = '{' ∧ ¬ st.inComment then
        let selector := rustTrim st.temp
        let r1 :=
          if selector ≠ [] then
            st.result ++ repeatList unit st.level ++ selector ++ [' ']
          else st.result
        let level' := st.level + 1
        cssGo unit maxLen fuel cs
          { result := r1 ++ '{' :: '\n' :: repeatList unit level',
            level := level',
            inBrace := true,
            inComment := st.inComment,
            decls := st.decls,
            temp := [],
            events := st.events ++ [true] }
      else if c = '}' ∧ ¬ st.inComment then
        let decls' := cssFlushTemp st.temp st.decls
        let formatted := decls'.map cssColonSpace
        let r1 :=
          if formatted ≠ [] then
            let joined := List.intercalate [';', ' '] formatted
            if joined.length + unit.length * st.level < maxLen ∧
               formatted.length ≤ 3 then
              st.result ++ joined ++ [';']
            else
              match formatted with
              | [] => st.result
              | d :: ds =>
                  cssExpandRest unit st.level (st.result ++ d ++ [';']) ds
          else st.result
        let level' := st.level - 1
        cssGo unit maxLen fuel cs
          { result := r1 ++ '\n' :: repeatList unit level' ++
              '}' :: '\n' :: repeatList unit level',
            level := level',
            inBrace := false,
            inComment := st.inComment,
            decls := [],
            temp := [],
            events := st.events ++ [false] }
      else if c = ';' ∧ ¬ st.inComment ∧ st.inBrace then
        let d := rustTrim st.temp
        if d ≠ [] then
          cssGo unit maxLen fuel cs
            { st with
                decls := st.decls ++ [d],
                result := st.result ++ cssColonSpace d ++ ';' ::
                  '\n' :: repeatList unit st.level,
                temp := [] }
        else
          cssGo unit maxLen fuel cs { st with temp := [] }
      else if ¬ st.inComment then
        if rustIsWhitespace c ∧
           (st.temp.getLast? = some ' ' ∨ st.temp.getLast? = some '\t') then
          cssGo unit maxLen fuel cs st
        else
          cssGo unit maxLen fuel cs { st with temp := st.temp ++ [c] }
      else
        cssGo unit maxLen fuel cs { st with result := st.result ++ [c] }

/-- The trailing-rule handler of `format_css` (lines 479-512). -/
def cssFinish (unit : List Char) (maxLen : Nat) (st : CssSt) : CssSt :=
  if st.temp ≠ [] ∨ st.decls ≠ [] then
    let decls' := cssFlushTemp st.temp st.decls
    let formatted := decls'.map cssColonSpace
    if formatted ≠ [] then
      let r1 := st.result ++ repeatList unit st.level
      let joined := List.intercalate [';', ' '] formatted
      let r2 :=
        if joined.length + unit.length * st.level < maxLen ∧
           formatted.length ≤ 3 then
          r1 ++ joined ++ [';']
        else
          cssExpandRest unit st.level r1 formatted
      if st.inBrace then
        let level' := st.level - 1
        { st with
            result := r2 ++ '\n' :: repeatList unit level' ++ ['}', '\n'],
            level := level',
            events := st.events ++ [false] }
      else
        { st with result := r2 }
    else st
  else st

/-- Initial state of the `format_css` scan. -/
def cssInit : CssSt := ⟨[], 0, false, false, [], [], []⟩

/-- Run the `format_css` scan (loop plus trailing-rule handler). -/
def cssScan (unit : List Char) (maxLen : Nat) (content : List Char) : CssSt :=
  cssFinish unit maxLen (cssGo unit maxLen (content.length + 1) content cssInit)

/-- src/main.rs lines 356-518: `format_css`. The compact-rendering width
test of lines 427 and 493 uses Rust byte lengths; character counts agree
on ASCII. -/
def format_css (content : String) (indent : Nat) (max_line_length : Nat) :
    String :=
  let unit := List.replicate indent ' '
  let st := cssScan unit max_line_length content.data
  let f1 := aosList st.result
  let f2 := listReplace f1 ['\n', '\n', '\n'] ['\n', '\n']
  (rustTrimEnd f2 ++ ['\n']).asString

/-! ### JS/TS engine (src/main.rs lines 523-688) -/

/-- State of the `format_js_ts` loop. `events` is instrumentation: it
records every increment (`true`) and saturating decrement (`false`) of
`current_indent_level`, in order; nothing in the output depends on
it. -/
structure JsSt where
  result : List Char
  level : Nat
  inString : Option Char
  inComS : Bool
  inComM : Bool
  statement : List Char
  lineLen : Nat
  events : List Bool
  deriving Repr, DecidableEq

/-- The closing-delimiter arm of the `format_js_ts` loop
(lines 611-637), given the lookahead character `la`: for `}` first emit
a newline and the decremented indent, then flush the pending statement,
emit the delimiter, and break the line after it when the lookahead is
not continuation punctuation and the line is over the limit. -/
def jsCloserStep (unit : List Char) (maxLen : Nat) (st : JsSt) (c : Char)
    (la : Option Char) : JsSt :=
  let st1 :=
    if c = '}' then
      { st with
          result := st.result ++ '\n' :: repeatList unit (st.level - 1),
          level := st.level - 1,
          events := st.events ++ [false] }
    else st
  let st2 :=
    { st1 with
        result := st1.result ++ st1.statement ++ [c],
        statement := [],
        lineLen := st1.lineLen + 1 }
  match la with
  | some nc =>
      if nc ≠ ',' ∧ nc ≠ ';' ∧ nc ≠ '}' ∧ nc ≠ ')' ∧ st2.lineLen > maxLen then
        { st2 with
            result := st2.result ++ '\n' :: repeatList unit st2.level,
            lineLen := unit.length * st2.level }
      else st2
  | none => st2

/-- The in-single-line-comment handling of the `format_js_ts` loop
(lines 538-547): copy the character; a newline ends the comment and is
followed by the current indent. -/
def jsComSStep (unit : List Char) (st : JsSt) (c : Char) : JsSt :=
  if c = '\n' then
    { st with
        inComS := false,
        result := st.result ++ '\n' :: repeatList unit st.level,
        lineLen := unit.length * st.level }
  else { st with result := st.result ++ [c] }

/-- The in-multi-line-comment closing step (lines 549-560), taken when
the current character is `*` and the lookahead is `/`. -/
def jsComMCloseStep (unit : List Char) (st : JsSt) : JsSt :=
  { st with
      inComM := false,
      result := st.result ++ ['*', '/'] ++ '\n' :: repeatList unit st.level,
      lineLen := unit.length * st.level }

/-- The in-string step (lines 562-569): the character goes into the
pending statement; the matching quote ends the string. -/
def jsStringStep (st : JsSt) (c q : Char) : JsSt :=
  { st with
      statement := st.statement ++ [c],
      lineLen := st.lineLen + 1,
      inString := if c = q then none else some q }

/-- The quote-opening arm (lines 572-576). -/
def jsQuoteStep (st : JsSt) (c : Char) : JsSt :=
  { st with
      inString := some c,
      statement := st.statement ++ [c],
      lineLen := st.lineLen + 1 }

/-- The `//` arm (lines 577-585): flush the pending statement verbatim
and enter single-line-comment mode. -/
def jsLineCommentStep (st : JsSt) : JsSt :=
  { st with
      result := st.result ++ st.statement ++ ['/', '/'],
      statement := [],
      inComS := true }

/-- The `/*` arm (lines 586-594). -/
def jsBlockCommentStep (st : JsSt) : JsSt :=
  { st with
      result := st.result ++ st.statement ++ ['/', '*'],
      statement := [],
      inComM := true }

/-- The opening-delimiter arm (lines 595-610): flush the statement with
the delimiter appended; only `\x7b` additionally breaks the line and
increments the indent level; the line-length counter is reset in every
case. -/
def jsOpenerStep (unit : List Char) (st : JsSt) (c : Char) : JsSt :=
  let stmt' := st.statement ++ [c]
  if c = '{' then
    let level' := st.level + 1
    { st with
        result := st.result ++ stmt' ++ '\n' :: repeatList unit level',
        level := level',
        statement := [],
        lineLen := unit.length * level',
        events := st.events ++ [true] }
  else
    { st with
        result := st.result ++ stmt',
        statement := [],
        lineLen := unit.length * st.level }

/-- The `;` arm (lines 638-648): the pending statement with its `;`
goes through `add_operator_spaces` and is flushed, followed by a
newline and the current indent. -/
def jsSemiStep (unit : List Char) (st : JsSt) : JsSt :=
  { st with
      result := st.result ++ aosList (st.statement ++ [';']) ++
        '\n' :: repeatList unit st.level,
      statement := [],
      lineLen := unit.length * st.level }

/-- The `,` arm (lines 649-660): the comma joins the pending statement;
the statement is flushed with a line break only when the running line
length exceeds the configured maximum. -/
def jsCommaStep (unit : List Char) (maxLen : Nat) (st : JsSt) : JsSt :=
  let stmt' := st.statement ++ [',']
  let lineLen' := st.lineLen + 1
  if lineLen' > maxLen then
    { st with
        result := st.result ++ stmt' ++ '\n' :: repeatList unit st.level,
        statement := [],
        lineLen := unit.length * st.level }
  else
    { st with statement := stmt', lineLen := lineLen' }

/-- The default arm (lines 661-667): whitespace following trailing
space/tab in the pending statement is dropped; every other character
joins the statement. -/
def jsTextStep (st : JsSt) (c : Char) : JsSt :=
  if rustIsWhitespace c ∧
     (st.statement.getLast? = some ' ' ∨ st.statement.getLast? = some '\t') then
    st
  else
    { st with statement := st.statement ++ [c], lineLen := st.lineLen + 1 }

/-- The `format_js_ts` loop (lines 537-669), dispatching to the arm
steps above. The `//`, `/*` and `*/` arms consume their lookahead
character (`cs.tail`); every other arm consumes only `c`. -/
def jsGo (unit : List Char) (maxLen : Nat) :
    Nat → List Char → JsSt → JsSt
  | 0, _, st => st
  | _ + 1, [], st => st
  | fuel + 1, c :: cs, st =>
      if st.inComS then
        jsGo unit maxLen fuel cs (jsComSStep unit st c)
      else if st.inComM then
        if c = '*' ∧ cs.head? = some '/' then
          jsGo unit maxLen fuel cs.tail (jsComMCloseStep unit st)
        else
          jsGo unit maxLen fuel cs { st with result := st.result ++ [c] }
      else
        match st.inString with
        | some q => jsGo unit maxLen fuel cs (jsStringStep st c q)
        | none =>
            if c = '"' ∨ c = Char.ofNat 39 then
              jsGo unit maxLen fuel cs (jsQuoteStep st c)
            else if c = '/' ∧ cs.head? = some '/' then
              jsGo unit maxLen fuel cs.tail (jsLineCommentStep st)
            else if c = '/' ∧ cs.head? = some '*' then
              jsGo unit maxLen fuel cs.tail (jsBlockCommentStep st)
            else if c = '{' ∨ c = '(' ∨ c = '[' then
              jsGo unit maxLen fuel cs (jsOpenerStep unit st c)
            else if c = '}' ∨ c = ')' ∨ c = ']' then
              jsGo unit maxLen fuel cs (jsCloserStep unit maxLen st c cs.head?)
            else if c = ';' then
              jsGo unit maxLen fuel cs (jsSemiStep unit st)
            else if c = ',' then
              jsGo unit maxLen fuel cs (jsCommaStep unit maxLen st)
            else
              jsGo unit maxLen fuel cs (jsTextStep st c)

/-- The end-of-input pending-statement handler of `format_js_ts`
(lines 672-682): the remaining statement goes through
`add_operator_spaces`, then `split_clustered_brackets`, is indented and
appended, a `;` is synthesised unless the processed statement already
ends in one of `;` `}` `)` `]`, and a newline is emitted. -/
def jsTailStep (unit : List Char) (st : JsSt) : List Char :=
  if st.statement ≠ [] then
    let fs := scbList unit st.level (aosList st.statement)
    st.result ++ repeatList unit st.level ++ fs ++
      (if fs.getLast? = some ';' ∨ fs.getLast? = some '}' ∨
          fs.getLast? = some ')' ∨ fs.getLast? = some ']' then []
       else [';']) ++ ['\n']
  else st.result

/-- Initial state of the `format_js_ts` scan (the initial
`indent_unit.repeat(0)` push of line 535 is the empty string). -/
def jsInit : JsSt := ⟨[], 0, none, false, false, [], 0, []⟩

/-- Run the `format_js_ts` scan. -/
def jsScan (unit : List Char) (maxLen : Nat) (content : List Char) : JsSt :=
  jsGo unit maxLen (content.length + 1) content jsInit

/-- src/main.rs lines 523-688: `format_js_ts`. -/
def format_js_ts (content : String) (indent : Nat) (max_line_length : Nat) :
    String :=
  let unit := List.replicate indent ' '
  let st := jsScan unit max_line_length content.data
  let r := jsTailStep unit st
  let f1 := scbList unit st.level r
  let f2 := listReplace f1 [' ', ' '] [' ']
  (rustTrimEnd f2 ++ ['\n']).asString

/-! ### File-type dispatch (src/main.rs lines 28-42) -/

/-- The file-name component of a path: the text after the last `/`.
This models `Path::file_name` for ordinary relative and absolute paths;
the `Path` special cases for `.` and `..` components are not
reproduced. -/
def pathFileName (p : List Char) : List Char :=
  (p.reverse.takeWhile (fun c => c ≠ '/')).reverse

/-- `Path::extension`: the part of the file name after its last dot,
provided some dot occurs after the first character (a leading dot marks
a hidden file, not an extension). -/
def pathExtension (p : List Char) : Option (List Char) :=
  let name := pathFileName p
  let afterLastDot := name.reverse.takeWhile (fun c => c ≠ '.')
  if afterLastDot.length + 1 ≤ name.length ∧
     afterLastDot.length + 1 ≠ name.length then
    some afterLastDot.reverse
  else
    none

/-- Rust `str::to_lowercase`, restricted to its action on ASCII letters
(the only case distinctions the four recognised extensions involve). -/
def rustToLowercase (l : List Char) : List Char :=
  l.map Char.toLower

/-- src/main.rs lines 28-42: `get_file_type`. Returns the type tag or
the error message (the Rust `anyhow` errors are modelled as the `.error`
side of `Except`). -/
def get_file_type (file_path : String) : Except (List Char) (List Char) :=
  match pathExtension file_path.data with
  | none => .error "no extension".data
  | some ext =>
      let e := rustToLowercase ext
      if e = "html".data then .ok "html".data
      else if e = "css".data then .ok "css".data
      else if e = "js".data then .ok "js".data
      else if e = "ts".data then .ok "ts".data
      else .error "unsupported extension".data

/-! ### Definitions used by the claim statements -/

/-- Replay a list of indent events (`true` = increment, `false` =
saturating decrement) exactly the way the three engines update their
`current_indent_level : usize` counters: `usize` arithmetic with
`saturating_sub`, which is `Nat` subtraction. -/
def satFold (es : List Bool) : Nat :=
  es.foldl (fun n e => if e then n + 1 else n - 1) 0

/-- Replay the same events against a stack: an opener is pushed, a
closer pops the most recent still-open opener if one exists (and is
ignored otherwise). The openers left on the stack are exactly the
openers seen so far that no later closer has matched. -/
def openerStack (es : List Bool) : List Unit :=
  es.foldl (fun st e => if e then () :: st else st.tail) []

/-- The number of unmatched structural openers after the events `es`. -/
def unmatchedOpeners (es : List Bool) : Nat :=
  (openerStack es).length

/-- The output ends in a newline and in exactly one newline: its last
character is `'\n'` and the character before it (if any) is not. -/
def endsWithExactlyOneNewline (l : List Char) : Prop :=
  l.getLast? = some '\n' ∧ l.dropLast.getLast? ≠ some '\n'

instance (l : List Char) : Decidable (endsWithExactlyOneNewline l) := by
  unfold endsWithExactlyOneNewline
  infer_instance

/-- The local spacing contract `add_operator_spaces` actually
establishes, as a relation between adjacent output characters:
a comma or semicolon is followed only by whitespace or a closing
delimiter; an opening delimiter is never followed by whitespace; an
operator character is preceded only by a space, an opening delimiter or
another operator character; an operator character is followed only by
another operator character, whitespace, a closing delimiter, a comma or
a semicolon. -/
def pairOK (a b : Char) : Bool :=
  (if a = ',' ∨ a = ';' then rustIsWhitespace b || isCloseDelim b else true) &&
  (if isOpenDelim a then ! rustIsWhitespace b else true) &&
  (if isOpChar b then decide (a = ' ') || isOpenDelim a || isOpChar a
   else true) &&
  (if isOpChar a then
     isOpChar b || rustIsWhitespace b || isCloseDelim b ||
       decide (b = ',') || decide (b = ';')
   else true)

/-- A fragment is correctly spaced, in the exact sense of the insertion
and deletion rules of `add_operator_spaces`: scanning it with the same
tokenisation as the function (greedy operator tokens via `opTake`),
every operator token is preceded by the start of the fragment, a space
or an opening delimiter and followed by the end, whitespace, a closing
delimiter, a comma or a semicolon; every comma/semicolon is followed by
the end, whitespace, a closing delimiter or a newline; every opening
delimiter is preceded by the start, a space, an opening delimiter or one
of `=` `+` `-` `*` `/` and never followed by whitespace; every closing
delimiter is not preceded by a space and is followed by the end,
whitespace, a closing delimiter, a comma, a semicolon or one of
`+` `-` `*` `/`. On such fragments every branch of the function copies
its input. `prev` is the character preceding the remaining input. -/
def correctlySpacedFrom : Nat → Option Char → List Char → Bool
  | 0, _, _ => false
  | _ + 1, _, [] => true
  | fuel + 1, prev, c :: cs =>
      if isOpChar c then
        let p := opTake [c] cs
        (decide (prev = none) || decide (prev = some ' ') ||
         decide (prev = some '(') || decide (prev = some '[') ||
         decide (prev = some '{')) &&
        (match p.2.head? with
         | none => true
         | some nc =>
             rustIsWhitespace nc || decide (nc = ')') || decide (nc = ']') ||
               decide (nc = '}') || decide (nc = ',') || decide (nc = ';')) &&
        correctlySpacedFrom fuel p.1.getLast? p.2
      else if c = ',' ∨ c = ';' then
        (match cs.head? with
         | none => true
         | some nc =>
             rustIsWhitespace nc || decide (nc = ')') || decide (nc = ']') ||
               decide (nc = '}') || decide (nc = '\n')) &&
        correctlySpacedFrom fuel (some c) cs
      else if isOpenDelim c then
        (decide (prev = none) || decide (prev = some ' ') ||
         decide (prev = some '(') || decide (prev = some '[') ||
         decide (prev = some '{') || decide (prev = some '=') ||
         decide (prev = some '+') || decide (prev = some '-') ||
         decide (prev = some '*') || decide (prev = some '/')) &&
        (match cs.head? with
         | none => true
         | some nc => ! rustIsWhitespace nc) &&
        correctlySpacedFrom fuel (some c) cs
      else if isCloseDelim c then
        decide (prev ≠ some ' ') &&
        (match cs.head? with
         | none => true
         | some nc =>
             rustIsWhitespace nc || decide (nc = ')') || decide (nc = ']') ||
               decide (nc = '}') || decide (nc = ',') || decide (nc = ';') ||
               decide (nc = '+') || decide (nc = '-') || decide (nc = '*') ||
               decide (nc = '/')) &&
        correctlySpacedFrom fuel (some c) cs
      else
        correctlySpacedFrom fuel (some c) cs

/-- A fragment that is already correctly spaced (see
`correctlySpacedFrom`). -/
def correctlySpaced (l : List Char) : Bool :=
  correctlySpacedFrom (l.length + 1) none l

/-- Relation between the last character already emitted by
`add_operator_spaces` and the next input character, maintained by every
arm of the loop: after an opening delimiter the following input is never
whitespace (it was skipped); after an emitted comma/semicolon the next
input is whitespace or a closing delimiter (otherwise a space would have
been emitted after it); after an operator character that ends a token
the next input is whitespace, a closing delimiter, a comma or a
semicolon (otherwise a space would have been emitted). -/
def headOK : Option Char → Option Char → Prop
  | some a, some n =>
      (isOpenDelim a = true → rustIsWhitespace n = false) ∧
      ((a = ',' ∨ a = ';') →
        rustIsWhitespace n = true ∨ isCloseDelim n = true) ∧
      (isOpChar a = true →
        rustIsWhitespace n = true ∨ isCloseDelim n = true ∨ n = ',' ∨ n = ';')
  | _, _ => True

/-! ## Theorems -/

theorem satFold_append (es : List Bool) (e : Bool) :
    satFold (es ++ [e]) = if e then satFold es + 1 else satFold es - 1 := by
  simp [satFold, List.foldl_append]

theorem satFold_eq_unmatchedOpeners (es : List Bool) :
    satFold es = unmatchedOpeners es := by
  suffices h : ∀ (es : List Bool) (n : Nat) (st : List Unit), n = st.length →
      es.foldl (fun n e => if e then n + 1 else n - 1) n =
        (es.foldl (fun st e => if e then () :: st else st.tail) st).length by
    exact h es 0 [] rfl
  intro es
  induction es with
  | nil => intro n st h; simpa using h
  | cons e es ih =>
      intro n st h
      simp only [List.foldl_cons]
      cases e with
      | true => exact ih _ _ (by simp [h])
      | false => exact ih _ _ (by simp [h, List.length_tail])

theorem htmlGo_nil (unit : List Char) (maxLen : Nat) (fuel : Nat)
    (st : HtmlSt) : htmlGo unit maxLen fuel [] st = st := by
  cases fuel <;> rfl

theorem htmlTagStep_level_inv (unit : List Char) (st : HtmlSt)
    (formatted : List Char) (h : st.level = satFold st.events) :
    (htmlTagStep unit st formatted).level =
      satFold (htmlTagStep unit st formatted).events := by
  simp only [htmlTagStep]
  repeat' split
  all_goals simp [satFold_append, h]

theorem htmlGo_level_inv (unit : List Char) (maxLen : Nat) :
    ∀ (fuel : Nat) (cs : List Char) (st : HtmlSt),
      st.level = satFold st.events →
      (htmlGo unit maxLen fuel cs st).level =
        satFold (htmlGo unit maxLen fuel cs st).events := by
  intro fuel
  induction fuel with
  | zero => intro cs st h; simpa [htmlGo] using h
  | succ fuel ih =>
      intro cs st h
      cases cs with
      | nil => simpa [htmlGo] using h
      | cons c cs =>
          simp only [htmlGo]
          repeat' split
          all_goals first
            | exact ih _ _ (htmlTagStep_level_inv _ _ _ (by simpa using h))
            | exact ih _ _ (by simpa using h)

theorem cssGo_level_inv (unit : List Char) (maxLen : Nat) :
    ∀ (fuel : Nat) (cs : List Char) (st : CssSt),
      st.level = satFold st.events →
      (cssGo unit maxLen fuel cs st).level =
        satFold (cssGo unit maxLen fuel cs st).events := by
  intro fuel
  induction fuel with
  | zero => intro cs st h; simpa [cssGo] using h
  | succ fuel ih =>
      intro cs st h
      cases cs with
      | nil => simpa [cssGo] using h
      | cons c cs =>
          simp only [cssGo]
          repeat' split
          all_goals exact ih _ _ (by simp [satFold_append, h])

theorem cssFinish_level_inv (unit : List Char) (maxLen : Nat) (st : CssSt)
    (h : st.level = satFold st.events) :
    (cssFinish unit maxLen st).level =
      satFold (cssFinish unit maxLen st).events := by
  simp only [cssFinish]
  repeat' split
  all_goals simp [satFold_append, h]

theorem jsCloserStep_level_inv (unit : List Char) (maxLen : Nat)
    (st : JsSt) (c : Char) (la : Option Char)
    (h : st.level = satFold st.events) :
    (jsCloserStep unit maxLen st c la).level =
      satFold (jsCloserStep unit maxLen st c la).events := by
  simp only [jsCloserStep]
  repeat' split
  all_goals simp [satFold_append, h]

theorem jsGo_level_inv (unit : List Char) (maxLen : Nat) :
    ∀ (fuel : Nat) (cs : List Char) (st : JsSt),
      st.level = satFold st.events →
      (jsGo unit maxLen fuel cs st).level =
        satFold (jsGo unit maxLen fuel cs st).events := by
  intro fuel
  induction fuel with
  | zero => intro cs st h; simpa [jsGo] using h
  | succ fuel ih =>
      intro cs st h
      cases cs with
      | nil => simpa [jsGo] using h
      | cons c cs =>
          simp only [jsGo]
          repeat' split
          all_goals refine ih _ _ ?_
          all_goals
            first
              | exact jsCloserStep_level_inv _ _ _ _ _ h
              | (simp only [jsComSStep, jsComMCloseStep, jsStringStep,
                   jsQuoteStep, jsLineCommentStep, jsBlockCommentStep,
                   jsOpenerStep, jsSemiStep, jsCommaStep, jsTextStep]
                 repeat' split
                 all_goals simp [satFold_append, h])

/-- C3: in all three engines the tracked indent level is a `usize`
updated only by `+= 1` and `saturating_sub(1)`, so at every point of
the scan it equals the saturating replay `satFold` of the structural
open/close events seen so far (recorded in the instrumentation field
`events`), it can never go negative (saturation at zero), and
`satFold es = unmatchedOpeners es` always: the level never exceeds the
number of structural openers seen so far that are still unmatched. -/
theorem indent_level_matches_unmatched_openers :
    (∀ es : List Bool, satFold es = unmatchedOpeners es) ∧
    (∀ (unit : List Char) (maxLen fuel : Nat) (cs : List Char) (st : HtmlSt),
      st.level = satFold st.events →
      (htmlGo unit maxLen fuel cs st).level =
        satFold (htmlGo unit maxLen fuel cs st).events) ∧
    (∀ (unit : List Char) (maxLen fuel : Nat) (cs : List Char) (st : CssSt),
      st.level = satFold st.events →
      (cssFinish unit maxLen (cssGo unit maxLen fuel cs st)).level =
        satFold (cssFinish unit maxLen (cssGo unit maxLen fuel cs st)).events) ∧
    (∀ (unit : List Char) (maxLen fuel : Nat) (cs : List Char) (st : JsSt),
      st.level = satFold st.events →
      (jsGo unit maxLen fuel cs st).level =
        satFold (jsGo unit maxLen fuel cs st).events) := by
  refine ⟨satFold_eq_unmatchedOpeners, ?_, ?_, ?_⟩
  · intro unit maxLen fuel cs st h
    exact htmlGo_level_inv unit maxLen fuel cs st h
  · intro unit maxLen fuel cs st h
    exact cssFinish_level_inv unit maxLen _
      (cssGo_level_inv unit maxLen fuel cs st h)
  · intro unit maxLen fuel cs st h
    exact jsGo_level_inv unit maxLen fuel cs st h

theorem indent_level_matches_unmatched_openers_witness :
    (htmlInit.level = satFold htmlInit.events ∧
      (htmlGo (List.replicate 2 ' ') 80 9 "<p>x</p>".data htmlInit).level =
        satFold
          ((htmlGo (List.replicate 2 ' ') 80 9 "<p>x</p>".data htmlInit).events)) ∧
    (cssInit.level = satFold cssInit.events ∧
      (cssFinish (List.replicate 2 ' ') 80
          (cssGo (List.replicate 2 ' ') 80 6 "a\x7bb:c".data cssInit)).level =
        satFold
          ((cssFinish (List.replicate 2 ' ') 80
            (cssGo (List.replicate 2 ' ') 80 6 "a\x7bb:c".data cssInit)).events)) ∧
    (jsInit.level = satFold jsInit.events ∧
      (jsGo (List.replicate 2 ' ') 80 6 "x=1;\x7d".data jsInit).level =
        satFold ((jsGo (List.replicate 2 ' ') 80 6 "x=1;\x7d".data jsInit).events)) :=
  ⟨⟨rfl, indent_level_matches_unmatched_openers.2.1 _ 80 9 _ htmlInit rfl⟩,
   ⟨rfl, indent_level_matches_unmatched_openers.2.2.1 _ 80 6 _ cssInit rfl⟩,
   ⟨rfl, indent_level_matches_unmatched_openers.2.2.2 _ 80 6 _ jsInit rfl⟩⟩

/-- C1, counterexample: on the CSS input `a{color:red;margin:0;padding:0}`
with indent 2 and max line length 80, `format_css` does NOT return the
string the claim demands: the three declarations were already flushed
one per line at each `;`, the closing-brace handler re-emits all three
compactly a second time, and the final `add_operator_spaces` pass
deletes the newline and indent that followed the opening brace. -/
theorem css_compact_fixture_counterexample :
    format_css "a\x7bcolor:red;margin:0;padding:0\x7d" 2 80 ≠
      "a \x7b\n  color: red; margin: 0; padding: 0;\n\x7d\n" := by
  decide

/-- C1, amended: the exact output of `format_css` on the fixture input:
each declaration is emitted incrementally at its semicolon, the compact
branch then re-emits the joined declaration list at the `\x7d`, and the
operator-spacing post-pass swallows the newline plus indent after the
opening brace. -/
theorem css_compact_fixture_actual_output :
    format_css "a\x7bcolor:red;margin:0;padding:0\x7d" 2 80 =
      "a \x7bcolor: red;\n  margin: 0;\n  color: red; margin: 0; padding: 0;\n\x7d\n" := by
  decide

/-- C2, counterexample: for the void element WITH an attribute,
`<img src="a.png">`, the normalised tag text `img src = "a.png"` is not
a whole-string member of the void list and does not end in `/`, so the
engine classifies it as an ordinary opening tag and increments the
indent level (one unmatched open event is recorded). -/
theorem void_element_with_attributes_increments_level :
    (htmlScanFrom (List.replicate 2 ' ') 80 htmlInit
        "<img src=\"a.png\">".data).level = 1 ∧
    (htmlScanFrom (List.replicate 2 ' ') 80 htmlInit
        "<img src=\"a.png\">".data).events = [true] := by
  constructor <;> decide

/-- C2, amended: a BARE void-element tag (`<meta>`, `<link>`, `<img>`,
`<br>`, `<hr>`, with no attributes, so that the captured tag text equals
the void-element name) never changes the indent level, from any scanner
state: no opening event is recorded and no closing tag is needed for
later output to stay at the same level. Void tags carrying attributes
are instead treated as ordinary opening tags (see the counterexample). -/
theorem bare_void_element_keeps_indent_level (t : List Char)
    (h : t ∈ voidElements) (unit : List Char) (maxLen : Nat) (st : HtmlSt)
    (fuel : Nat) :
    (htmlGo unit maxLen (fuel + 1) ('<' :: (t ++ ['>'])) st).level = st.level ∧
    (htmlGo unit maxLen (fuel + 1) ('<' :: (t ++ ['>'])) st).events =
      st.events := by
  fin_cases h <;>
    refine ⟨?_, ?_⟩ <;>
      simp [htmlGo, htmlGo_nil, consumeTag, formatTagAttrs, htmlTagStep,
        trimEndGt, voidElements] <;>
      split_ifs <;> simp

theorem bare_void_element_keeps_indent_level_witness :
    ("img".data ∈ voidElements) ∧
    (htmlGo (List.replicate 2 ' ') 80 6 ('<' :: ("img".data ++ ['>']))
        htmlInit).level = htmlInit.level ∧
    (htmlGo (List.replicate 2 ' ') 80 6 ('<' :: ("img".data ++ ['>']))
        htmlInit).events = htmlInit.events :=
  ⟨by decide,
   (bare_void_element_keeps_indent_level "img".data (by decide)
      (List.replicate 2 ' ') 80 htmlInit 5).1,
   (bare_void_element_keeps_indent_level "img".data (by decide)
      (List.replicate 2 ' ') 80 htmlInit 5).2⟩

/-- C5, counterexample: at a closing-delimiter break the emitted indent
is NOT `unit` repeated (base + stack depth) times: the trailing-space
trim that runs just before the closer is appended removes one space of
the freshly emitted indent. For `)))` with unit two spaces and base 1,
the output is `))\n )` (one space of indent), not `))\n  )`. -/
theorem scb_closer_break_indent_counterexample :
    split_clustered_brackets ")))" "  " 1 = "))\n )" ∧
    split_clustered_brackets ")))" "  " 1 ≠ "))\n  )" := by
  constructor <;> decide

theorem isOpenDelim_false_of_close {c : Char} (h : isCloseDelim c = true) :
    isOpenDelim c = false := by
  simp [isCloseDelim] at h
  rcases h with h | h | h <;> subst h <;> rfl

/-- C5, amended: at every opening or closing delimiter, when the
consecutive-delimiter counter reaches 3 or the internal line length
passes the hard-coded 80 (checked before the increment for closers,
after it for openers), `split_clustered_brackets` inserts a newline
followed by `unit` repeated (base + stack depth) times, the depth taken
after pushing the opener respectively after popping the closer, and
resets the counter; for a closing delimiter one trailing space of that
indent is then removed (the pre-closer space trim) before the closer
and its optional following space are appended. The threshold 80 is a
literal in the function, which receives no max-line-length argument. -/
theorem scb_break_insertion (unit : List Char) (base : Nat) (c : Char)
    (cs acc stack : List Char) (consec lineLen : Nat)
    (hc : isOpenDelim c = true ∨ isCloseDelim c = true)
    (htr : consec + 1 ≥ 3 ∨
      (if isOpenDelim c then lineLen + 1 else lineLen) > 80) :
    scbGo unit base (c :: cs) acc stack consec lineLen =
      if isOpenDelim c then
        scbGo unit base cs
          (acc ++ c :: '\n' :: repeatList unit (base + (c :: stack).length))
          (c :: stack) 0 (unit.length * (base + (c :: stack).length))
      else
        let stack' := if stack ≠ [] then stack.tail else stack
        let r1 := acc ++ '\n' :: repeatList unit (base + stack'.length)
        let r2 := if r1 ≠ [] ∧ r1.getLast? = some ' ' then r1.dropLast else r1
        let r3 := r2 ++ [c]
        let ll := unit.length * (base + stack'.length) + 1
        match cs.head? with
        | some nc =>
            if ¬ rustIsWhitespace nc ∧ nc ≠ ')' ∧ nc ≠ ']' ∧ nc ≠ '}' ∧
               nc ≠ ',' ∧ nc ≠ ';' then
              scbGo unit base cs (r3 ++ [' ']) stack' 0 (ll + 1)
            else scbGo unit base cs r3 stack' 0 ll
        | none => scbGo unit base cs r3 stack' 0 ll := by
  rcases hc with hco | hcc
  · have h80 : consec + 1 ≥ 3 ∨ lineLen + 1 > 80 := by simpa [hco] using htr
    simp only [scbGo]
    rw [if_pos hco, if_pos h80, if_pos hco]
    simp [List.append_assoc]
  · have hno : isOpenDelim c = false := isOpenDelim_false_of_close hcc
    have h80 : consec + 1 ≥ 3 ∨ lineLen > 80 := by simpa [hno] using htr
    simp only [scbGo, hno, hcc, Bool.false_eq_true, if_false, if_true,
      if_pos h80]

theorem scb_break_insertion_witness :
    scbGo [' ', ' '] 1 [')'] [')', ')'] [] 2 2 = "))\n )".data := by
  rw [scb_break_insertion [' ', ' '] 1 ')' [] [')', ')'] [] 2 2
    (by decide) (by decide)]
  decide

theorem dropWhile_head_false {α : Type} (p : α → Bool) :
    ∀ (l : List α) (a : α), (l.dropWhile p).head? = some a → p a = false := by
  intro l
  induction l with
  | nil => intro a h; simp [List.dropWhile] at h
  | cons c rest ih =>
      intro a h
      by_cases hc : p c
      · exact ih a (by simpa [List.dropWhile, hc] using h)
      · simp only [List.dropWhile, hc] at h
        simp only [List.head?] at h
        cases h
        simpa using hc

theorem rustTrimEnd_last_not_ws (l : List Char) (c : Char)
    (h : (rustTrimEnd l).getLast? = some c) : rustIsWhitespace c = false := by
  apply dropWhile_head_false rustIsWhitespace l.reverse c
  rw [rustTrimEnd, List.getLast?_reverse] at h
  exact h

theorem trimEnd_append_newline_exactlyOne (l : List Char) :
    endsWithExactlyOneNewline (rustTrimEnd l ++ ['\n']) := by
  constructor
  · simp
  · rw [List.dropLast_concat]
    intro h
    have hws := rustTrimEnd_last_not_ws l '\n' h
    simp [rustIsWhitespace] at hws

/-- C6, counterexample: `format_html` can return output ending in TWO
newlines. On the input `<div\n` (an unterminated tag whose captured text
ends in a newline) with indent 2, the ordinary-opening-tag branch emits
the tag text (still ending in `\n`) followed by another newline plus
indent, and the final pass trims only spaces and tabs, leaving
`< div\n\n`. -/
theorem html_two_trailing_newlines_counterexample :
    format_html "<div\n" 2 80 = "< div\n\n" ∧
    ¬ endsWithExactlyOneNewline (format_html "<div\n" 2 80).data := by
  constructor <;> decide

/-- C6, amended: `format_css` and `format_js_ts` end with exactly one
trailing newline for every input (their final step trims all trailing
whitespace and appends one `\n`); `format_html` always ends with a
newline as its final character, but only trims trailing spaces and tabs,
so malformed inputs can leave more than one trailing newline (see the
counterexample). -/
theorem formatted_output_trailing_newline :
    (∀ (content : String) (indent maxLen : Nat),
      endsWithExactlyOneNewline (format_css content indent maxLen).data) ∧
    (∀ (content : String) (indent maxLen : Nat),
      endsWithExactlyOneNewline (format_js_ts content indent maxLen).data) ∧
    (∀ (content : String) (indent maxLen : Nat),
      (format_html content indent maxLen).data.getLast? = some '\n') := by
  refine ⟨?_, ?_, ?_⟩
  · intro content indent maxLen
    simpa [format_css, List.asString] using
      trimEnd_append_newline_exactlyOne _
  · intro content indent maxLen
    simpa [format_js_ts, List.asString] using
      trimEnd_append_newline_exactlyOne _
  · intro content indent maxLen
    simp only [format_html, List.asString]
    split
    · next h => exact h
    · simp

/-- C8: at end of input a non-empty pending statement is passed through
`add_operator_spaces` then `split_clustered_brackets`, indented with the
current level, appended, given a synthesised `;` exactly when the
processed statement does not already end in `;` `\x7d` `)` `]`, and
terminated by a newline; and `format_js_ts` is exactly the main scan
followed by this handler, a final `split_clustered_brackets` pass,
double-space collapsing, trailing trim and one newline. -/
theorem js_trailing_statement_handling :
    (∀ (unit : List Char) (st : JsSt), st.statement ≠ [] →
      jsTailStep unit st =
        st.result ++ repeatList unit st.level ++
          scbList unit st.level (aosList st.statement) ++
          (if (scbList unit st.level (aosList st.statement)).getLast? =
                some ';' ∨
              (scbList unit st.level (aosList st.statement)).getLast? =
                some '}' ∨
              (scbList unit st.level (aosList st.statement)).getLast? =
                some ')' ∨
              (scbList unit st.level (aosList st.statement)).getLast? =
                some ']'
           then [] else [';']) ++ ['\n']) ∧
    (∀ (content : String) (indent maxLen : Nat),
      format_js_ts content indent maxLen =
        (rustTrimEnd (listReplace
          (scbList (List.replicate indent ' ')
            (jsScan (List.replicate indent ' ') maxLen content.data).level
            (jsTailStep (List.replicate indent ' ')
              (jsScan (List.replicate indent ' ') maxLen content.data)))
          [' ', ' '] [' ']) ++ ['\n']).asString) := by
  constructor
  · intro unit st h
    simp [jsTailStep, h]
  · intro content indent maxLen
    rfl

theorem js_trailing_statement_handling_witness :
    (jsScan [' ', ' '] 80 "x".data).statement ≠ [] ∧
    jsTailStep [' ', ' '] (jsScan [' ', ' '] 80 "x".data) = "x;\n".data := by
  refine ⟨by decide, ?_⟩
  rw [js_trailing_statement_handling.1 _ _ (by decide)]
  decide

/-- C9: `get_file_type` accepts a path exactly when its extension,
lowercased, is one of `html`, `css`, `js`, `ts`; the returned tag is
that lowercased extension; and a path without an extension is always
rejected. All of this happens before any formatting function is
involved. -/
theorem get_file_type_accepts_exactly_the_four_extensions :
    ∀ p : String,
      ((∃ t, get_file_type p = .ok t) ↔
        (∃ e, pathExtension p.data = some e ∧
          (rustToLowercase e = "html".data ∨ rustToLowercase e = "css".data ∨
           rustToLowercase e = "js".data ∨ rustToLowercase e = "ts".data))) ∧
      (∀ t, get_file_type p = .ok t →
        ∃ e, pathExtension p.data = some e ∧ t = rustToLowercase e) ∧
      (pathExtension p.data = none → ∀ t, get_file_type p ≠ .ok t) := by
  intro p
  cases hE : pathExtension p.data with
  | none =>
      refine ⟨?_, ?_, ?_⟩
      · simp [get_file_type, hE]
      · simp [get_file_type, hE]
      · intro _ t
        simp [get_file_type, hE]
  | some e =>
      refine ⟨?_, ?_, ?_⟩
      · constructor
        · intro ht
          refine ⟨e, rfl, ?_⟩
          rcases ht with ⟨t, ht⟩
          simp only [get_file_type, hE] at ht
          split_ifs at ht with h1 h2 h3 h4 <;> simp_all
        · rintro ⟨e', he', hl⟩
          cases he'
          simp only [get_file_type, hE]
          rcases hl with h | h | h | h <;> simp [h]
      · intro t ht
        refine ⟨e, rfl, ?_⟩
        simp only [get_file_type, hE] at ht
        split_ifs at ht with h1 h2 h3 h4 <;> simp_all
      · intro h
        simp at h

theorem get_file_type_accepts_exactly_the_four_extensions_witness :
    ∃ t, get_file_type "x.HTML" = Except.ok t :=
  (get_file_type_accepts_exactly_the_four_extensions "x.HTML").1.mpr
    ⟨"HTML".data, by decide, Or.inl (by decide)⟩

theorem op_char_facts {a : Char} (h : isOpChar a = true) :
    isOpenDelim a = false ∧ isCloseDelim a = false ∧ a ≠ ',' ∧ a ≠ ';' ∧
      a ≠ ' ' ∧ rustIsWhitespace a = false := by
  simp only [isOpChar, decide_eq_true_eq] at h
  fin_cases h <;> decide

theorem open_delim_facts {a : Char} (h : isOpenDelim a = true) :
    isOpChar a = false ∧ isCloseDelim a = false ∧ a ≠ ',' ∧ a ≠ ';' ∧
      a ≠ ' ' ∧ rustIsWhitespace a = false := by
  simp only [isOpenDelim, decide_eq_true_eq] at h
  fin_cases h <;> decide

theorem close_delim_facts {a : Char} (h : isCloseDelim a = true) :
    isOpChar a = false ∧ isOpenDelim a = false ∧ a ≠ ',' ∧ a ≠ ';' ∧
      a ≠ ' ' ∧ rustIsWhitespace a = false := by
  simp only [isCloseDelim, decide_eq_true_eq] at h
  fin_cases h <;> decide

theorem ite_true_of_imp (p : Prop) [Decidable p] (x : Bool)
    (h : p → x = true) : (if p then x else true) = true := by
  split
  · next hp => exact h hp
  · rfl

theorem pairOK_intro (a b : Char)
    (h1 : (a = ',' ∨ a = ';') → (rustIsWhitespace b || isCloseDelim b) = true)
    (h2 : isOpenDelim a = true → (! rustIsWhitespace b) = true)
    (h3 : isOpChar b = true →
      (decide (a = ' ') || isOpenDelim a || isOpChar a) = true)
    (h4 : isOpChar a = true →
      (isOpChar b || rustIsWhitespace b || isCloseDelim b ||
        decide (b = ',') || decide (b = ';')) = true) :
    pairOK a b = true := by
  unfold pairOK
  simp only [Bool.and_eq_true]
  exact ⟨⟨⟨ite_true_of_imp _ _ h1, ite_true_of_imp _ _ h2⟩,
    ite_true_of_imp _ _ h3⟩, ite_true_of_imp _ _ h4⟩

theorem pairOK_right_closer (a b : Char) (hb : isCloseDelim b = true) :
    pairOK a b = true := by
  have h := close_delim_facts hb
  refine pairOK_intro a b ?_ ?_ ?_ ?_
  · intro _; simp [hb]
  · intro _; simp [h.2.2.2.2.2]
  · intro hx; rw [h.1] at hx; cases hx
  · intro _; simp [hb]

theorem pairOK_right_space (a : Char) (ha : isOpenDelim a = false) :
    pairOK a ' ' = true := by
  refine pairOK_intro a ' ' ?_ ?_ ?_ ?_
  · intro _; decide
  · intro hx; rw [ha] at hx; cases hx
  · intro hx; cases hx
  · intro _; decide

theorem pairOK_right_op (a b : Char) (hb : isOpChar b = true)
    (ha : a = ' ' ∨ isOpenDelim a = true ∨ isOpChar a = true) :
    pairOK a b = true := by
  refine pairOK_intro a b ?_ ?_ ?_ ?_
  · intro hx
    rcases ha with ha | ha | ha
    · subst ha; rcases hx with hx | hx <;> cases hx
    · rcases hx with hx | hx <;>
        [exact absurd hx (open_delim_facts ha).2.2.1;
         exact absurd hx (open_delim_facts ha).2.2.2.1]
    · rcases hx with hx | hx <;>
        [exact absurd hx (op_char_facts ha).2.2.1;
         exact absurd hx (op_char_facts ha).2.2.2.1]
  · intro _; simp [(op_char_facts hb).2.2.2.2.2]
  · intro _
    rcases ha with ha | ha | ha
    · subst ha; decide
    · simp [ha]
    · simp [ha]
  · intro _; simp [hb]

theorem pairOK_right_open (a b : Char) (hb : isOpenDelim b = true)
    (ha : a = ' ' ∨ isOpenDelim a = true) : pairOK a b = true := by
  refine pairOK_intro a b ?_ ?_ ?_ ?_
  · intro hx
    rcases ha with ha | ha
    · subst ha; rcases hx with hx | hx <;> cases hx
    · rcases hx with hx | hx <;>
        [exact absurd hx (open_delim_facts ha).2.2.1;
         exact absurd hx (open_delim_facts ha).2.2.2.1]
  · intro _; simp [(open_delim_facts hb).2.2.2.2.2]
  · intro hx; rw [(open_delim_facts hb).1] at hx; cases hx
  · intro hx
    rcases ha with ha | ha
    · subst ha; cases hx
    · rw [(open_delim_facts ha).1] at hx; cases hx

theorem pairOK_right_punct (a b : Char) (hb : b = ',' ∨ b = ';')
    (ha : ¬ (a = ',' ∨ a = ';')) : pairOK a b = true := by
  refine pairOK_intro a b ?_ ?_ ?_ ?_
  · intro hx; exact absurd hx ha
  · intro _; rcases hb with hb | hb <;> subst hb <;> decide
  · intro hx; rcases hb with hb | hb <;> subst hb <;> cases hx
  · intro _; rcases hb with hb | hb <;> subst hb <;> simp

theorem pairOK_of_headOK (a c : Char)
    (h1 : isOpenDelim a = true → rustIsWhitespace c = false)
    (h2 : (a = ',' ∨ a = ';') →
      rustIsWhitespace c = true ∨ isCloseDelim c = true)
    (h3 : isOpChar a = true →
      rustIsWhitespace c = true ∨ isCloseDelim c = true ∨ c = ',' ∨ c = ';')
    (hc : isOpChar c = false) : pairOK a c = true := by
  refine pairOK_intro a c ?_ ?_ ?_ ?_
  · intro hx; rcases h2 hx with w | w <;> simp [w]
  · intro hx; simp [h1 hx]
  · intro hx; rw [hc] at hx; cases hx
  · intro hx; rcases h3 hx with w | w | w | w <;> simp [w]

theorem headOK_plain (a : Char) (h1 : isOpenDelim a = false)
    (h2 : ¬ (a = ',' ∨ a = ';')) (h3 : isOpChar a = false)
    (n : Option Char) : headOK (some a) n := by
  cases n <;> simp [headOK, h1, h2, h3]

theorem opTake_ne_nil (op : List Char) (h : op ≠ []) :
    ∀ cs : List Char, (opTake op cs).1 ≠ [] := by
  intro cs
  induction cs generalizing op with
  | nil => simpa [opTake] using h
  | cons c rest ih =>
      simp only [opTake]
      split
      · exact ih _ (by simp)
      · simpa using h

theorem opTake_head (op : List Char) (h : op ≠ []) :
    ∀ cs : List Char, (opTake op cs).1.head? = op.head? := by
  intro cs
  induction cs generalizing op with
  | nil => simp [opTake]
  | cons c rest ih =>
      simp only [opTake]
      split
      · rw [ih _ (by simp)]
        cases op with
        | nil => exact absurd rfl h
        | cons a t => simp
      · simp

theorem opTake_all_op :
    ∀ (cs op : List Char), (∀ x ∈ op, isOpChar x = true) →
      ∀ x ∈ (opTake op cs).1, isOpChar x = true := by
  intro cs
  induction cs with
  | nil => intro op hop; simpa [opTake] using hop
  | cons c rest ih =>
      intro op hop
      simp only [opTake]
      split
      · next hcond =>
          refine ih _ ?_
          intro x hx
          rcases List.mem_append.mp hx with hx | hx
          · exact hop x hx
          · have hc : c = '=' ∨ c = '&' ∨ c = '|' := by
              rcases hcond with h | ⟨_, h⟩ | ⟨_, h⟩
              · exact Or.inl h
              · exact Or.inr (Or.inl h)
              · exact Or.inr (Or.inr h)
            have hxc : x = c := by simpa using hx
            subst hxc
            rcases hc with h | h | h <;> subst h <;> decide
      · simpa using hop

theorem chain'_rev_of_all_op (op : List Char)
    (hop : ∀ x ∈ op, isOpChar x = true) :
    List.Chain' (fun a b => pairOK b a = true) op.reverse := by
  rw [List.chain'_reverse]
  induction op with
  | nil => simp
  | cons a t ih =>
      cases t with
      | nil => simp
      | cons b t' =>
          refine List.chain'_cons.mpr ⟨?_, ?_⟩
          · show pairOK a b = true
            exact pairOK_right_op a b (hop b (by simp))
              (Or.inr (Or.inr (hop a (by simp))))
          · exact ih (fun x hx => hop x (List.mem_cons_of_mem _ hx))

theorem isOpenDelim_false_of_ne (y : Char) (h1 : y ≠ '(') (h2 : y ≠ '[')
    (h3 : y ≠ '{') : isOpenDelim y = false := by
  simp [isOpenDelim, h1, h2, h3]

theorem aosOpStep_chain (racc op : List Char) (la : Option Char)
    (hop : ∀ x ∈ op, isOpChar x = true) (hne : op ≠ [])
    (hC : List.Chain' (fun a b => pairOK b a = true) racc) :
    List.Chain' (fun a b => pairOK b a = true) (aosOpStep racc op la) ∧
    headOK (aosOpStep racc op la).head? la := by
  simp only [aosOpStep]
  set racc1 :=
    if racc ≠ [] ∧ racc.head? ≠ some ' ' ∧ racc.head? ≠ some '(' ∧
       racc.head? ≠ some '[' ∧ racc.head? ≠ some '{' then
      ' ' :: racc
    else racc with hracc1
  have hd1 : ∀ y, racc1.head? = some y → y = ' ' ∨ isOpenDelim y = true := by
    intro y hy
    rw [hracc1] at hy
    split at hy
    · have : y = ' ' := by simpa [eq_comm] using hy
      exact Or.inl this
    · next hcond =>
        push_neg at hcond
        have hne' : racc ≠ [] := by
          intro h'
          rw [h', List.head?_nil] at hy
          cases hy
        by_cases hQ : y = ' '
        · exact Or.inl hQ
        by_cases h1 : y = '('
        · exact Or.inr (by simp [h1, isOpenDelim])
        by_cases h2 : y = '['
        · exact Or.inr (by simp [h2, isOpenDelim])
        have h3 := hcond hne' (by rw [hy]; simpa using hQ)
          (by rw [hy]; simpa using h1) (by rw [hy]; simpa using h2)
        rw [hy] at h3
        have : y = '{' := by simpa using h3
        exact Or.inr (by simp [this, isOpenDelim])
  have hch1 : List.Chain' (fun a b => pairOK b a = true) racc1 := by
    rw [hracc1]
    split
    · next hcond =>
        refine List.Chain'.cons' hC ?_
        intro y hy
        have hy' : racc.head? = some y := hy
        show pairOK y ' ' = true
        refine pairOK_right_space y ?_
        refine isOpenDelim_false_of_ne y ?_ ?_ ?_ <;>
          · intro he
            subst he
            simp_all
    · exact hC
  obtain ⟨z, t, hzt⟩ : ∃ z t, op.reverse = z :: t := by
    cases hrev : op.reverse with
    | nil => exact absurd (List.reverse_eq_nil_iff.mp hrev) hne
    | cons z t => exact ⟨z, t, rfl⟩
  have hzmem : z ∈ op := by
    have : z ∈ op.reverse := by rw [hzt]; simp
    simpa using this
  have hzop : isOpChar z = true := hop z hzmem
  have hch2 :
      List.Chain' (fun a b => pairOK b a = true) (op.reverse ++ racc1) := by
    refine List.chain'_append.mpr
      ⟨chain'_rev_of_all_op op hop, hch1, ?_⟩
    intro x hx y hy
    show pairOK y x = true
    have hxop : isOpChar x = true := by
      refine hop x ?_
      have : x ∈ op.reverse := List.mem_of_mem_getLast? hx
      simpa using this
    refine pairOK_right_op y x hxop ?_
    rcases hd1 y hy with h | h
    · exact Or.inl h
    · exact Or.inr (Or.inl h)
  have hhd2 : (op.reverse ++ racc1).head? = some z := by
    rw [hzt]
    rfl
  have hzfacts := op_char_facts hzop
  cases la with
  | none =>
      refine ⟨hch2, ?_⟩
      rw [hhd2]
      simp [headOK]
  | some nc =>
      by_cases hcond : ¬ rustIsWhitespace nc = true ∧ nc ≠ ')' ∧ nc ≠ ']' ∧
          nc ≠ '}' ∧ nc ≠ ',' ∧ nc ≠ ';'
      · simp only [if_pos hcond]
        constructor
        · refine List.Chain'.cons' hch2 ?_
          intro y hy
          have hy' : (op.reverse ++ racc1).head? = some y := hy
          rw [hhd2] at hy'
          cases hy'
          show pairOK z ' ' = true
          exact pairOK_right_space z hzfacts.1
        · exact headOK_plain ' ' (by decide) (by decide) (by decide) _
      · simp only [if_neg hcond]
        refine ⟨hch2, ?_⟩
        rw [hhd2]
        refine ⟨?_, ?_, ?_⟩
        · intro h
          rw [hzfacts.1] at h
          cases h
        · intro h
          rcases h with h | h
          · exact absurd h hzfacts.2.2.1
          · exact absurd h hzfacts.2.2.2.1
        · intro _
          push_neg at hcond
          by_cases hws : rustIsWhitespace nc = true
          · exact Or.inl hws
          have hws' : ¬ rustIsWhitespace nc = true := hws
          by_cases k1 : nc = ')'
          · exact Or.inr (Or.inl (by simp [isCloseDelim, k1]))
          by_cases k2 : nc = ']'
          · exact Or.inr (Or.inl (by simp [isCloseDelim, k2]))
          by_cases k3 : nc = '}'
          · exact Or.inr (Or.inl (by simp [isCloseDelim, k3]))
          by_cases k4 : nc = ','
          · exact Or.inr (Or.inr (Or.inl k4))
          exact Or.inr (Or.inr (Or.inr (hcond hws' k1 k2 k3 k4)))

theorem aosPunctStep_chain (racc : List Char) (c : Char) (la : Option Char)
    (hc : c = ',' ∨ c = ';')
    (hC : List.Chain' (fun a b => pairOK b a = true) racc)
    (hH : headOK racc.head? (some c)) :
    List.Chain' (fun a b => pairOK b a = true) (aosPunctStep racc c la) ∧
    headOK (aosPunctStep racc c la).head? la := by
  simp only [aosPunctStep]
  have hchc : List.Chain' (fun a b => pairOK b a = true) (c :: racc) := by
    refine List.Chain'.cons' hC ?_
    intro y hy
    have hy' : racc.head? = some y := hy
    show pairOK y c = true
    refine pairOK_right_punct y c hc ?_
    intro hy2
    rw [hy'] at hH
    have hw := hH.2.1 hy2
    rcases hc with hc | hc <;> subst hc <;>
      rcases hw with h | h <;>
        simp [rustIsWhitespace, isCloseDelim] at h
  cases la with
  | none =>
      refine ⟨hchc, ?_⟩
      simp [headOK]
  | some nc =>
      by_cases hcond : ¬ rustIsWhitespace nc = true ∧ nc ≠ ')' ∧ nc ≠ ']' ∧
          nc ≠ '}' ∧ nc ≠ '\n'
      · simp only [if_pos hcond]
        constructor
        · refine List.Chain'.cons' hchc ?_
          intro y hy
          have hy' : (c :: racc).head? = some y := hy
          have : y = c := by simpa [eq_comm] using hy'
          subst this
          show pairOK y ' ' = true
          refine pairOK_right_space y ?_
          rcases hc with hc | hc <;> subst hc <;> decide
        · exact headOK_plain ' ' (by decide) (by decide) (by decide) _
      · simp only [if_neg hcond]
        refine ⟨hchc, ?_⟩
        refine ⟨?_, ?_, ?_⟩
        · intro h
          rcases hc with hc | hc <;> subst hc <;> cases h
        · intro _
          push_neg at hcond
          by_cases hws : rustIsWhitespace nc = true
          · exact Or.inl hws
          have hws' : ¬ rustIsWhitespace nc = true := hws
          by_cases k1 : nc = ')'
          · exact Or.inr (by simp [isCloseDelim, k1])
          by_cases k2 : nc = ']'
          · exact Or.inr (by simp [isCloseDelim, k2])
          by_cases k3 : nc = '}'
          · exact Or.inr (by simp [isCloseDelim, k3])
          have hnl := hcond hws' k1 k2 k3
          exact absurd (by simp [hnl, rustIsWhitespace] :
            rustIsWhitespace nc = true) hws
        · intro h
          rcases hc with hc | hc <;> subst hc <;> cases h

theorem aosOpenStep_chain (racc : List Char) (c : Char) (rest : List Char)
    (hc : isOpenDelim c = true)
    (hC : List.Chain' (fun a b => pairOK b a = true) racc)
    (hH : headOK racc.head? (some c)) :
    List.Chain' (fun a b => pairOK b a = true) (aosOpenStep racc c) ∧
    headOK (aosOpenStep racc c).head?
      ((rest.dropWhile rustIsWhitespace).head?) := by
  have hcf := open_delim_facts hc
  simp only [aosOpenStep]
  set racc1 :=
    if racc ≠ [] ∧ racc.head? ≠ some ' ' ∧ racc.head? ≠ some '(' ∧
       racc.head? ≠ some '[' ∧ racc.head? ≠ some '{' ∧
       racc.head? ≠ some '=' ∧ racc.head? ≠ some '+' ∧
       racc.head? ≠ some '-' ∧ racc.head? ≠ some '*' ∧
       racc.head? ≠ some '/' then
      ' ' :: racc
    else racc with hracc1
  have hch1 : List.Chain' (fun a b => pairOK b a = true) racc1 := by
    rw [hracc1]
    split
    · next hcond =>
        refine List.Chain'.cons' hC ?_
        intro y hy
        have hy' : racc.head? = some y := hy
        show pairOK y ' ' = true
        refine pairOK_right_space y ?_
        refine isOpenDelim_false_of_ne y ?_ ?_ ?_ <;>
          · intro he
            subst he
            simp_all
    · exact hC
  have hd1 : ∀ y, racc1.head? = some y → y = ' ' ∨ isOpenDelim y = true := by
    intro y hy
    rw [hracc1] at hy
    split at hy
    · have : y = ' ' := by simpa [eq_comm] using hy
      exact Or.inl this
    · next hcond =>
        push_neg at hcond
        have hne' : racc ≠ [] := by
          intro h'
          rw [h', List.head?_nil] at hy
          cases hy
        by_cases hQ : y = ' '
        · exact Or.inl hQ
        by_cases h1 : y = '('
        · exact Or.inr (by simp [h1, isOpenDelim])
        by_cases h2 : y = '['
        · exact Or.inr (by simp [h2, isOpenDelim])
        by_cases h3 : y = '{'
        · exact Or.inr (by simp [h3, isOpenDelim])
        exfalso
        have hyop : isOpChar y = true := by
          by_cases h4 : y = '='
          · simp [h4, isOpChar, opCharList]
          by_cases h5 : y = '+'
          · simp [h5, isOpChar, opCharList]
          by_cases h6 : y = '-'
          · simp [h6, isOpChar, opCharList]
          by_cases h7 : y = '*'
          · simp [h7, isOpChar, opCharList]
          have h8 := hcond hne' (by rw [hy]; simpa using hQ)
            (by rw [hy]; simpa using h1) (by rw [hy]; simpa using h2)
            (by rw [hy]; simpa using h3) (by rw [hy]; simpa using h4)
            (by rw [hy]; simpa using h5) (by rw [hy]; simpa using h6)
            (by rw [hy]; simpa using h7)
          rw [hy] at h8
          have : y = '/' := by simpa using h8
          simp [this, isOpChar, opCharList]
        rw [hy] at hH
        rcases hH.2.2 hyop with w | w | w | w
        · rw [hcf.2.2.2.2.2] at w
          cases w
        · rw [hcf.2.1] at w
          cases w
        · exact hcf.2.2.1 w
        · exact hcf.2.2.2.1 w
  constructor
  · refine List.Chain'.cons' hch1 ?_
    intro y hy
    have hy' : racc1.head? = some y := hy
    show pairOK y c = true
    exact pairOK_right_open y c hc (hd1 y hy')
  · show headOK (some c) ((rest.dropWhile rustIsWhitespace).head?)
    cases hm : (rest.dropWhile rustIsWhitespace).head? with
    | none => simp [headOK]
    | some n =>
        refine ⟨?_, ?_, ?_⟩
        · intro _
          exact dropWhile_head_false rustIsWhitespace rest n hm
        · intro h
          rcases h with h | h
          · exact absurd h hcf.2.2.1
          · exact absurd h hcf.2.2.2.1
        · intro h
          rw [hcf.1] at h
          cases h

theorem aosCloseStep_chain (racc : List Char) (c : Char) (la : Option Char)
    (hc : isCloseDelim c = true)
    (hC : List.Chain' (fun a b => pairOK b a = true) racc) :
    List.Chain' (fun a b => pairOK b a = true) (aosCloseStep racc c la) ∧
    headOK (aosCloseStep racc c la).head? la := by
  have hcf := close_delim_facts hc
  simp only [aosCloseStep]
  set racc1 := if racc ≠ [] ∧ racc.head? = some ' ' then racc.tail else racc
    with hracc1
  have hch1 : List.Chain' (fun a b => pairOK b a = true) racc1 := by
    rw [hracc1]
    split
    · exact hC.tail
    · exact hC
  have hchc : List.Chain' (fun a b => pairOK b a = true) (c :: racc1) := by
    refine List.Chain'.cons' hch1 ?_
    intro y hy
    show pairOK y c = true
    exact pairOK_right_closer y c hc
  cases la with
  | none =>
      refine ⟨hchc, ?_⟩
      simp [headOK]
  | some nc =>
      by_cases hcond : ¬ rustIsWhitespace nc = true ∧ nc ≠ ')' ∧ nc ≠ ']' ∧
          nc ≠ '}' ∧ nc ≠ ',' ∧ nc ≠ ';' ∧ nc ≠ '+' ∧ nc ≠ '-' ∧ nc ≠ '*' ∧
          nc ≠ '/'
      · simp only [if_pos hcond]
        constructor
        · refine List.Chain'.cons' hchc ?_
          intro y hy
          have hy' : (c :: racc1).head? = some y := hy
          have : y = c := by simpa [eq_comm] using hy'
          subst this
          show pairOK y ' ' = true
          exact pairOK_right_space y hcf.2.1
        · exact headOK_plain ' ' (by decide) (by decide) (by decide) _
      · simp only [if_neg hcond]
        refine ⟨hchc, ?_⟩
        refine ⟨?_, ?_, ?_⟩
        · intro h
          rw [hcf.2.1] at h
          cases h
        · intro h
          rcases h with h | h
          · exact absurd h hcf.2.2.1
          · exact absurd h hcf.2.2.2.1
        · intro h
          rw [hcf.1] at h
          cases h

theorem aosGo_chain :
    ∀ (fuel : Nat) (cs racc : List Char),
      List.Chain' (fun a b => pairOK b a = true) racc →
      headOK racc.head? cs.head? →
      List.Chain' (fun a b => pairOK b a = true) (aosGo fuel cs racc) := by
  intro fuel
  induction fuel with
  | zero => intro cs racc hC _; simpa [aosGo] using hC
  | succ fuel ih =>
      intro cs racc hC hH
      cases cs with
      | nil => simpa [aosGo] using hC
      | cons c cs =>
          simp only [aosGo]
          by_cases hOp : isOpChar c = true
          · rw [if_pos hOp]
            have hop1 : ∀ x ∈ [c], isOpChar x = true := by
              intro x hx
              have : x = c := by simpa using hx
              rw [this]
              exact hOp
            have hall := opTake_all_op cs [c] hop1
            have hne := opTake_ne_nil [c] (by simp) cs
            have hstep := aosOpStep_chain racc (opTake [c] cs).1
              (opTake [c] cs).2.head? hall hne hC
            exact ih _ _ hstep.1 hstep.2
          · rw [if_neg hOp]
            by_cases hPu : c = ',' ∨ c = ';'
            · rw [if_pos hPu]
              have hstep := aosPunctStep_chain racc c cs.head? hPu hC hH
              exact ih _ _ hstep.1 hstep.2
            · rw [if_neg hPu]
              by_cases hOpn : isOpenDelim c = true
              · rw [if_pos hOpn]
                have hstep := aosOpenStep_chain racc c cs hOpn hC hH
                exact ih _ _ hstep.1 hstep.2
              · rw [if_neg hOpn]
                by_cases hCl : isCloseDelim c = true
                · rw [if_pos hCl]
                  have hstep := aosCloseStep_chain racc c cs.head? hCl hC
                  exact ih _ _ hstep.1 hstep.2
                · rw [if_neg hCl]
                  refine ih _ _ ?_ ?_
                  · refine List.Chain'.cons' hC ?_
                    intro y hy
                    have hy' : racc.head? = some y := hy
                    rw [hy'] at hH
                    show pairOK y c = true
                    exact pairOK_of_headOK y c hH.1 hH.2.1 hH.2.2
                      (by simpa using hOp)
                  · exact headOK_plain c (by simpa using hOpn) hPu
                      (by simpa using hOp) _

/-- The pairwise-spacing contract that `add_operator_spaces` really
establishes, proved for every input. -/
theorem aos_chain_pairOK (s : String) :
    List.Chain' (fun a b => pairOK a b = true) (aosList s.data) := by
  have h := aosGo_chain (s.data.length + 1) s.data []
    List.chain'_nil (by cases s.data <;> simp [headOK])
  rw [aosList, List.chain'_reverse]
  exact h

/-- C4, counterexample: `add_operator_spaces` does NOT collapse
pre-existing whitespace around an operator and does not normalise it to
exactly one space on each side: on `a  +  b` (two spaces each side) the
space-insertion guards see the output already ending in a space and the
next character being whitespace, so the fragment passes through
unchanged instead of becoming `a + b`. -/
theorem aos_whitespace_not_collapsed_counterexample :
    add_operator_spaces "a  +  b" = "a  +  b" ∧
    add_operator_spaces "a  +  b" ≠ "a + b" := by
  constructor <;> decide

/-- C4, amended: the local spacing contract `add_operator_spaces`
really establishes between every pair of adjacent output characters
(`pairOK`): a comma/semicolon is followed only by whitespace or a
closing delimiter; an opening delimiter is never followed by
whitespace; an operator character is preceded only by a space, an
opening delimiter or another operator character (a space is inserted
exactly when needed for this); an operator character is followed only
by another operator character, whitespace, a closing delimiter, a comma
or a semicolon. Pre-existing whitespace runs elsewhere are preserved,
not collapsed (see the counterexample). -/
theorem aos_output_pairwise_spacing (s : String) :
    List.Chain' (fun a b => pairOK a b = true) (aosList s.data) :=
  aos_chain_pairOK s

/-- C10: in the output of `add_operator_spaces` an opening delimiter
`(` `[` `\x7b` is never immediately followed by a whitespace character:
the function deletes all pre-existing whitespace after an opening
delimiter and never inserts any there. -/
theorem aos_no_whitespace_after_opening_delimiter (s : String) :
    List.Chain'
      (fun a b => isOpenDelim a = true → rustIsWhitespace b = false)
      (aosList s.data) := by
  refine List.Chain'.imp ?_ (aos_chain_pairOK s)
  intro a b hab hopen
  unfold pairOK at hab
  simp only [Bool.and_eq_true] at hab
  have h2 := hab.1.1.2
  rw [if_pos hopen] at h2
  simpa using h2

theorem opTake_snd_length (op : List Char) :
    ∀ cs : List Char, (opTake op cs).2.length ≤ cs.length := by
  intro cs
  induction cs generalizing op with
  | nil => simp [opTake]
  | cons c rest ih =>
      simp only [opTake]
      split
      · exact le_trans (ih _) (Nat.le_succ _)
      · simp

theorem opTake_append (op : List Char) :
    ∀ cs : List Char, op ++ cs = (opTake op cs).1 ++ (opTake op cs).2 := by
  intro cs
  induction cs generalizing op with
  | nil => simp [opTake]
  | cons c rest ih =>
      simp only [opTake]
      split
      · rw [← ih (op ++ [c])]
        simp
      · simp

theorem head?_reverse_append {α : Type} (l r : List α) (h : l ≠ []) :
    (l.reverse ++ r).head? = l.getLast? := by
  obtain ⟨z, t, hzt⟩ : ∃ z t, l.reverse = z :: t := by
    cases hrev : l.reverse with
    | nil => exact absurd (List.reverse_eq_nil_iff.mp hrev) h
    | cons z t => exact ⟨z, t, rfl⟩
  rw [hzt, List.cons_append, List.head?_cons, ← List.head?_reverse, hzt,
    List.head?_cons]

theorem dropWhile_eq_self_of_head {α : Type} (p : α → Bool) (l : List α)
    (h : ∀ a, l.head? = some a → p a = false) : l.dropWhile p = l := by
  cases l with
  | nil => rfl
  | cons a t =>
      rw [List.dropWhile_cons]
      simp [h a rfl]

theorem aosOpStep_copy (racc op : List Char) (la : Option Char)
    (hpre : racc.head? = none ∨ racc.head? = some ' ' ∨
      racc.head? = some '(' ∨ racc.head? = some '[' ∨
      racc.head? = some '{')
    (hpost : ∀ nc, la = some nc → rustIsWhitespace nc = true ∨ nc = ')' ∨
      nc = ']' ∨ nc = '}' ∨ nc = ',' ∨ nc = ';') :
    aosOpStep racc op la = op.reverse ++ racc := by
  simp only [aosOpStep]
  have hc1 : ¬ (racc ≠ [] ∧ racc.head? ≠ some ' ' ∧ racc.head? ≠ some '(' ∧
      racc.head? ≠ some '[' ∧ racc.head? ≠ some '{') := by
    rcases hpre with h | h | h | h | h
    · intro hx
      exact hx.1 (List.head?_eq_none_iff.mp h)
    · intro hx; exact hx.2.1 h
    · intro hx; exact hx.2.2.1 h
    · intro hx; exact hx.2.2.2.1 h
    · intro hx; exact hx.2.2.2.2 h
  rw [if_neg hc1]
  cases la with
  | none => rfl
  | some nc =>
      have hp := hpost nc rfl
      have hc2 : ¬ (¬ rustIsWhitespace nc = true ∧ nc ≠ ')' ∧ nc ≠ ']' ∧
          nc ≠ '}' ∧ nc ≠ ',' ∧ nc ≠ ';') := by
        rcases hp with h | h | h | h | h | h
        · intro hx; exact hx.1 h
        · intro hx; exact hx.2.1 h
        · intro hx; exact hx.2.2.1 h
        · intro hx; exact hx.2.2.2.1 h
        · intro hx; exact hx.2.2.2.2.1 h
        · intro hx; exact hx.2.2.2.2.2 h
      dsimp only
      rw [if_neg hc2]

theorem aosPunctStep_copy (racc : List Char) (c : Char) (la : Option Char)
    (hpost : ∀ nc, la = some nc → rustIsWhitespace nc = true ∨ nc = ')' ∨
      nc = ']' ∨ nc = '}' ∨ nc = '\n') :
    aosPunctStep racc c la = c :: racc := by
  simp only [aosPunctStep]
  cases la with
  | none => rfl
  | some nc =>
      have hp := hpost nc rfl
      have hc2 : ¬ (¬ rustIsWhitespace nc = true ∧ nc ≠ ')' ∧ nc ≠ ']' ∧
          nc ≠ '}' ∧ nc ≠ '\n') := by
        rcases hp with h | h | h | h | h
        · intro hx; exact hx.1 h
        · intro hx; exact hx.2.1 h
        · intro hx; exact hx.2.2.1 h
        · intro hx; exact hx.2.2.2.1 h
        · intro hx; exact hx.2.2.2.2 h
      dsimp only
      rw [if_neg hc2]

theorem aosOpenStep_copy (racc : List Char) (c : Char)
    (hpre : racc.head? = none ∨ racc.head? = some ' ' ∨
      racc.head? = some '(' ∨ racc.head? = some '[' ∨
      racc.head? = some '{' ∨ racc.head? = some '=' ∨
      racc.head? = some '+' ∨ racc.head? = some '-' ∨
      racc.head? = some '*' ∨ racc.head? = some '/') :
    aosOpenStep racc c = c :: racc := by
  simp only [aosOpenStep]
  have hc1 : ¬ (racc ≠ [] ∧ racc.head? ≠ some ' ' ∧ racc.head? ≠ some '(' ∧
      racc.head? ≠ some '[' ∧ racc.head? ≠ some '{' ∧
      racc.head? ≠ some '=' ∧ racc.head? ≠ some '+' ∧
      racc.head? ≠ some '-' ∧ racc.head? ≠ some '*' ∧
      racc.head? ≠ some '/') := by
    rcases hpre with h | h | h | h | h | h | h | h | h | h
    · intro hx
      exact hx.1 (List.head?_eq_none_iff.mp h)
    · intro hx; exact hx.2.1 h
    · intro hx; exact hx.2.2.1 h
    · intro hx; exact hx.2.2.2.1 h
    · intro hx; exact hx.2.2.2.2.1 h
    · intro hx; exact hx.2.2.2.2.2.1 h
    · intro hx; exact hx.2.2.2.2.2.2.1 h
    · intro hx; exact hx.2.2.2.2.2.2.2.1 h
    · intro hx; exact hx.2.2.2.2.2.2.2.2.1 h
    · intro hx; exact hx.2.2.2.2.2.2.2.2.2 h
  rw [if_neg hc1]

theorem aosCloseStep_copy (racc : List Char) (c : Char) (la : Option Char)
    (hpre : racc.head? ≠ some ' ')
    (hpost : ∀ nc, la = some nc → rustIsWhitespace nc = true ∨ nc = ')' ∨
      nc = ']' ∨ nc = '}' ∨ nc = ',' ∨ nc = ';' ∨ nc = '+' ∨ nc = '-' ∨
      nc = '*' ∨ nc = '/') :
    aosCloseStep racc c la = c :: racc := by
  simp only [aosCloseStep]
  have hc1 : ¬ (racc ≠ [] ∧ racc.head? = some ' ') := fun hx => hpre hx.2
  rw [if_neg hc1]
  cases la with
  | none => rfl
  | some nc =>
      have hp := hpost nc rfl
      have hc2 : ¬ (¬ rustIsWhitespace nc = true ∧ nc ≠ ')' ∧ nc ≠ ']' ∧
          nc ≠ '}' ∧ nc ≠ ',' ∧ nc ≠ ';' ∧ nc ≠ '+' ∧ nc ≠ '-' ∧
          nc ≠ '*' ∧ nc ≠ '/') := by
        rcases hp with h | h | h | h | h | h | h | h | h | h
        · intro hx; exact hx.1 h
        · intro hx; exact hx.2.1 h
        · intro hx; exact hx.2.2.1 h
        · intro hx; exact hx.2.2.2.1 h
        · intro hx; exact hx.2.2.2.2.1 h
        · intro hx; exact hx.2.2.2.2.2.1 h
        · intro hx; exact hx.2.2.2.2.2.2.1 h
        · intro hx; exact hx.2.2.2.2.2.2.2.1 h
        · intro hx; exact hx.2.2.2.2.2.2.2.2.1 h
        · intro hx; exact hx.2.2.2.2.2.2.2.2.2 h
      dsimp only
      rw [if_neg hc2]

theorem asString_data (s : String) : s.data.asString = s := rfl

theorem aosGo_copy :
    ∀ (fuel1 fuel2 : Nat) (cs racc : List Char),
      cs.length < fuel1 → cs.length < fuel2 →
      correctlySpacedFrom fuel2 racc.head? cs = true →
      aosGo fuel1 cs racc = cs.reverse ++ racc := by
  intro fuel1
  induction fuel1 with
  | zero => intro fuel2 cs racc h1 _ _; exact absurd h1 (Nat.not_lt_zero _)
  | succ fuel1 ih =>
      intro fuel2 cs racc h1 h2 hN
      cases cs with
      | nil => simp [aosGo]
      | cons c cs' =>
          cases fuel2 with
          | zero => exact absurd h2 (Nat.not_lt_zero _)
          | succ fuel2 =>
              simp only [correctlySpacedFrom] at hN
              simp only [aosGo]
              have h1' : cs'.length < fuel1 := Nat.lt_of_succ_lt_succ h1
              have h2' : cs'.length < fuel2 := Nat.lt_of_succ_lt_succ h2
              by_cases hOp : isOpChar c = true
              · rw [if_pos hOp] at hN ⊢
                simp only [Bool.and_eq_true] at hN
                obtain ⟨⟨hpre, hpost⟩, hrec⟩ := hN
                have hlen : (opTake [c] cs').2.length ≤ cs'.length :=
                  opTake_snd_length [c] cs'
                have hne := opTake_ne_nil [c] (by simp) cs'
                have hpre' : racc.head? = none ∨ racc.head? = some ' ' ∨
                    racc.head? = some '(' ∨ racc.head? = some '[' ∨
                    racc.head? = some '{' := by
                  simp only [Bool.or_eq_true, decide_eq_true_eq] at hpre
                  tauto
                have hpost' : ∀ nc, (opTake [c] cs').2.head? = some nc →
                    rustIsWhitespace nc = true ∨ nc = ')' ∨ nc = ']' ∨
                    nc = '}' ∨ nc = ',' ∨ nc = ';' := by
                  intro nc hnc
                  rw [hnc] at hpost
                  simp only [Bool.or_eq_true, decide_eq_true_eq] at hpost
                  tauto
                rw [aosOpStep_copy racc (opTake [c] cs').1
                  (opTake [c] cs').2.head? hpre' hpost']
                rw [ih fuel2 (opTake [c] cs').2
                  ((opTake [c] cs').1.reverse ++ racc)
                  (lt_of_le_of_lt hlen h1') (lt_of_le_of_lt hlen h2') ?_]
                · have happ := opTake_append [c] cs'
                  calc (opTake [c] cs').2.reverse ++
                        ((opTake [c] cs').1.reverse ++ racc)
                      = ((opTake [c] cs').1 ++ (opTake [c] cs').2).reverse ++
                          racc := by
                        simp [List.reverse_append, List.append_assoc]
                    _ = ([c] ++ cs').reverse ++ racc := by rw [← happ]
                    _ = (c :: cs').reverse ++ racc := by simp
                · rw [head?_reverse_append (opTake [c] cs').1 racc hne]
                  exact hrec
              · rw [if_neg hOp] at hN ⊢
                by_cases hPu : c = ',' ∨ c = ';'
                · rw [if_pos hPu] at hN ⊢
                  simp only [Bool.and_eq_true] at hN
                  obtain ⟨hpost, hrec⟩ := hN
                  have hpost' : ∀ nc, cs'.head? = some nc →
                      rustIsWhitespace nc = true ∨ nc = ')' ∨ nc = ']' ∨
                      nc = '}' ∨ nc = '\n' := by
                    intro nc hnc
                    rw [hnc] at hpost
                    simp only [Bool.or_eq_true, decide_eq_true_eq] at hpost
                    tauto
                  rw [aosPunctStep_copy racc c cs'.head? hpost']
                  rw [ih fuel2 cs' (c :: racc) h1' h2' hrec]
                  simp
                · rw [if_neg hPu] at hN ⊢
                  by_cases hOpn : isOpenDelim c = true
                  · rw [if_pos hOpn] at hN ⊢
                    simp only [Bool.and_eq_true] at hN
                    obtain ⟨⟨hpre, hpost⟩, hrec⟩ := hN
                    have hpre' : racc.head? = none ∨ racc.head? = some ' ' ∨
                        racc.head? = some '(' ∨ racc.head? = some '[' ∨
                        racc.head? = some '{' ∨ racc.head? = some '=' ∨
                        racc.head? = some '+' ∨ racc.head? = some '-' ∨
                        racc.head? = some '*' ∨ racc.head? = some '/' := by
                      simp only [Bool.or_eq_true, decide_eq_true_eq,
                        or_assoc] at hpre
                      exact hpre
                    have hdw : cs'.dropWhile rustIsWhitespace = cs' := by
                      refine dropWhile_eq_self_of_head _ _ ?_
                      intro a ha
                      rw [ha] at hpost
                      simpa using hpost
                    rw [aosOpenStep_copy racc c hpre', hdw]
                    rw [ih fuel2 cs' (c :: racc) h1' h2' hrec]
                    simp
                  · rw [if_neg hOpn] at hN ⊢
                    by_cases hCl : isCloseDelim c = true
                    · rw [if_pos hCl] at hN ⊢
                      simp only [Bool.and_eq_true] at hN
                      obtain ⟨⟨hpre, hpost⟩, hrec⟩ := hN
                      have hpre' : racc.head? ≠ some ' ' := by
                        simpa only [decide_eq_true_eq] using hpre
                      have hpost' : ∀ nc, cs'.head? = some nc →
                          rustIsWhitespace nc = true ∨ nc = ')' ∨ nc = ']' ∨
                          nc = '}' ∨ nc = ',' ∨ nc = ';' ∨ nc = '+' ∨
                          nc = '-' ∨ nc = '*' ∨ nc = '/' := by
                        intro nc hnc
                        rw [hnc] at hpost
                        simp only [Bool.or_eq_true, decide_eq_true_eq,
                          or_assoc] at hpost
                        exact hpost
                      rw [aosCloseStep_copy racc c cs'.head? hpre' hpost']
                      rw [ih fuel2 cs' (c :: racc) h1' h2' hrec]
                      simp
                    · rw [if_neg hCl] at hN ⊢
                      rw [ih fuel2 cs' (c :: racc) h1' h2' hN]
                      simp

/-- C7, counterexample: `add_operator_spaces` is NOT idempotent on its
own image. On `x  )` (two spaces before the closer) the closer arm pops
only one space, returning `x )`, which is in the image; a second
application pops the remaining space and returns `x)`. -/
theorem aos_not_idempotent_on_image_counterexample :
    add_operator_spaces "x  )" = "x )" ∧
    add_operator_spaces (add_operator_spaces "x  )") = "x)" ∧
    add_operator_spaces (add_operator_spaces "x  )") ≠
      add_operator_spaces "x  )" := by
  refine ⟨by decide, by decide, by decide⟩

/-- C7, amended: `add_operator_spaces` is the identity - and hence
idempotent - on every fragment that is already correctly spaced in the
exact sense of its own insertion and deletion rules (`correctlySpaced`);
but not every output of the function is such a fragment: an input with
two or more spaces before a closing delimiter leaves one space before
the closer in the output, and a second application removes it (see the
counterexample). -/
theorem aos_idempotent_on_correctly_spaced (t : String)
    (h : correctlySpaced t.data = true) :
    add_operator_spaces t = t ∧
    add_operator_spaces (add_operator_spaces t) = add_operator_spaces t := by
  have hfix : add_operator_spaces t = t := by
    have hcopy := aosGo_copy (t.data.length + 1) (t.data.length + 1) t.data []
      (Nat.lt_succ_self _) (Nat.lt_succ_self _) h
    unfold add_operator_spaces aosList
    rw [hcopy]
    simp [asString_data]
  exact ⟨hfix, by rw [hfix, hfix]⟩

theorem aos_idempotent_on_correctly_spaced_witness :
    correctlySpaced "a + b;".data = true ∧
    add_operator_spaces "a + b;" = "a + b;" ∧
    add_operator_spaces (add_operator_spaces "a + b;") =
      add_operator_spaces "a + b;" :=
  ⟨by decide,
   (aos_idempotent_on_correctly_spaced "a + b;" (by decide)).1,
   (aos_idempotent_on_correctly_spaced "a + b;" (by decide)).2⟩

end CodeFormatter
